import Mathlib

/-!
Verification of the go-lsp code generator (internal/generate).

This file shallowly embeds the generator core — the data model of
metaModel.json (model.go), the name mapper and type resolver
(generator helpers), and the emission pipeline (output.go) — as
executable Lean definitions, and proves the frozen claims about it.

Modelling conventions:
* Go strings are Lean `String`; all character-level operations are
  implemented over `String.data : List Char` so that every definition
  reduces in the kernel.  Go byte-wise lexicographic comparison of
  UTF-8 strings coincides with code-point lexicographic comparison,
  which is what `charsLt` implements.
* Go maps are association lists; map assignment overwrites in place.
  The unspecified iteration order of `range` over a map is modelled by
  an explicit iteration-order parameter where the generator ranges
  over a map (the promoted-literal map).
* The recursive functions of the generator (`resolveGoType`,
  `collectProperties`) are embedded with an explicit fuel argument so
  that they are structurally recursive and kernel-computable; the
  fuel bounds are proved sufficient (see the stability lemmas), which
  is exactly the termination argument of the Go original.
* JSON-decoded float64 numbers (enumeration values) are modelled as
  rationals; the Go conversion `int64(v)` is truncation toward zero,
  `Int.tdiv` on numerator and denominator.
* Unicode case conversion (`unicode.ToUpper`, `unicode.IsUpper`) is
  modelled by `Char.toUpper` / `Char.isUpper`, which agree with Go on
  ASCII; every name in scope (LSP methods, property names) is ASCII.
-/

namespace GoLsp

/-! ### Character-level string utilities -/

/-- Capitalize the first character of a rune list (Go:
`runes[0] = unicode.ToUpper(runes[0])`). -/
def upFirst : List Char → List Char
  | [] => []
  | c :: cs => c.toUpper :: cs

/-- Split a rune list on a separator character; Go `strings.Split`
semantics: `splitChar '/' "a//b"` gives `["a", "", "b"]` and the empty
input gives `[""]`. -/
def splitChar (sep : Char) : List Char → List (List Char)
  | [] => [[]]
  | c :: rest =>
    match splitChar sep rest with
    | [] => [[c]]
    | h :: t => if c = sep then [] :: h :: t else (c :: h) :: t

/-- Drop a leading marker if present (Go `strings.TrimPrefix`). -/
def trimLeading (marker : List Char) (cs : List Char) : List Char :=
  if marker.isPrefixOf cs then cs.drop marker.length else cs

/-- Test for a leading marker (Go `strings.HasPrefix`). -/
def hasLeading (marker : List Char) (cs : List Char) : Bool :=
  marker.isPrefixOf cs

/-- Replace the first occurrence of `pat` in `cs` by `rep`
(Go `strings.Replace(s, pat, rep, 1)` for non-empty `pat`). -/
def replaceFirstChars (pat rep : List Char) : List Char → List Char
  | [] => if pat.isPrefixOf [] then rep else []
  | c :: rest =>
    if pat.isPrefixOf (c :: rest) then rep ++ (c :: rest).drop pat.length
    else c :: replaceFirstChars pat rep rest

/-- Replace the first occurrence of `pat` in `s` by `rep` on strings. -/
def replaceFirst (s pat rep : String) : String :=
  String.mk (replaceFirstChars pat.data rep.data s.data)

/-- Strict lexicographic comparison of rune lists (the order used by
Go `slices.Sort` on strings and `cmp.Compare` on method names). -/
def charsLt : List Char → List Char → Bool
  | [], [] => false
  | [], _ :: _ => true
  | _ :: _, [] => false
  | a :: as, b :: bs => if a < b then true else if b < a then false else charsLt as bs

/-- Non-strict string comparison derived from `charsLt`. -/
def strLeB (a b : String) : Bool := !(charsLt b.data a.data)


/-! ### Data model (model.go)

The `Type` node of metaModel.json is a tagged variant discriminated by
its `kind` string; the generator reads, for each kind, exactly the
payload field belonging to that kind, so the faithful shallow embedding
is a sum type (one constructor per kind, plus `other` for unknown
kinds, which the resolver treats as opaque).  Nilable payload pointers
(`element`, `key`, `value`, `literal`) are `Option`. -/

mutual
/-- Type node of metaModel.json (`Type` in model.go).  The payload of
a recursive position uses the companion types `OptTy` (a nilable
`*Type` field), `TyList` (an `items` slice) and `OptLit` (the nilable
literal body), declared in the same mutual block so that the whole
family is a plain mutual inductive with derived executable recursion. -/
inductive Ty where
  | base (name : String)
  | reference (name : String)
  | array (element : OptTy)
  | map (key : OptTy) (value : OptTy)
  | or (items : TyList)
  | and (items : TyList)
  | tuple (items : TyList)
  | literal (lit : OptLit)
  | stringLiteral (value : String)
  | integerLiteral (value : Int)
  | booleanLiteral (value : Bool)
  | other (kind : String)

/-- Nilable type pointer (`*Type` in model.go). -/
inductive OptTy where
  | none
  | some (t : Ty)

/-- Slice of type nodes (`[]Type` in model.go). -/
inductive TyList where
  | nil
  | cons (head : Ty) (tail : TyList)

/-- Nilable literal pointer (`*LiteralType` in model.go). -/
inductive OptLit where
  | none
  | some (l : LiteralType)

/-- Anonymous literal structure body (`LiteralType` in model.go). -/
inductive LiteralType where
  | mk (properties : PropList)

/-- Slice of properties (`[]Property` in model.go). -/
inductive PropList where
  | nil
  | cons (head : Property) (tail : PropList)

/-- Property of a structure or literal (`Property` in model.go). -/
inductive Property where
  | mk (documentation name : String) (optional proposed : Bool) (type : Ty)
end

/-- Converts a Lean list of type nodes to a `TyList`. -/
def tyListOf : List Ty → TyList
  | [] => TyList.nil
  | t :: ts => TyList.cons t (tyListOf ts)

/-- Converts a `TyList` back to a Lean list. -/
def TyList.toList : TyList → List Ty
  | TyList.nil => []
  | TyList.cons t ts => t :: ts.toList

/-- Length of a `TyList` (Go `len`). -/
def TyList.length : TyList → Nat
  | TyList.nil => 0
  | TyList.cons _ ts => ts.length + 1

/-- Converts a Lean list of properties to a `PropList`. -/
def propListOf : List Property → PropList
  | [] => PropList.nil
  | p :: ps => PropList.cons p (propListOf ps)

/-- Converts a `PropList` back to a Lean list. -/
def PropList.toList : PropList → List Property
  | PropList.nil => []
  | PropList.cons p ps => p :: ps.toList

/-- Properties of a literal body, as a Lean list. -/
def LiteralType.properties : LiteralType → List Property
  | .mk ps => ps.toList

/-- Doc string of a property. -/
def Property.documentation : Property → String
  | .mk d _ _ _ _ => d

/-- LSP name of a property. -/
def Property.name : Property → String
  | .mk _ n _ _ _ => n

/-- Optional flag of a property. -/
def Property.optional : Property → Bool
  | .mk _ _ o _ _ => o

/-- Proposed flag of a property. -/
def Property.proposed : Property → Bool
  | .mk _ _ _ p _ => p

/-- Type of a property. -/
def Property.type : Property → Ty
  | .mk _ _ _ _ t => t

/-- Structure of the meta-model (`Structure` in model.go).  The Go
field `Extends` is called `extends_` because `extends` is reserved in
Lean.  Fields the generator never reads (`since`) are omitted. -/
structure Structure where
  documentation : String
  extends_ : List Ty
  mixins : List Ty
  name : String
  properties : List Property
  proposed : Bool

/-- Base-type descriptor of an enumeration (`EnumBaseType`). -/
structure EnumBaseType where
  kind : String
  name : String
deriving DecidableEq, Repr

/-- Value of the Go interface type `any` as it appears in an
enumeration value decoded from JSON (`Value any`); JSON numbers decode
as float64, modelled as an exact rational. -/
inductive GoVal where
  | float (q : ℚ)
  | i64 (n : ℤ)
  | int (n : ℤ)
  | str (s : String)
  | bool (b : Bool)
deriving DecidableEq, Repr

/-- Single enumeration value (`EnumerationValue`). -/
structure EnumerationValue where
  documentation : String
  name : String
  proposed : Bool
  value : GoVal

/-- Enumeration (`Enumeration`). -/
structure Enumeration where
  documentation : String
  name : String
  proposed : Bool
  supportsCustomValues : Bool
  type : EnumBaseType
  values : List EnumerationValue

/-- Type alias (`TypeAlias`). -/
structure TypeAlias where
  documentation : String
  name : String
  proposed : Bool
  type : Ty

/-- Request (`Request`); fields the generator never reads
(`errorData`, `partialResult`, `registrationMethod`,
`registrationOptions`, `since`) are omitted. -/
structure Request where
  documentation : String
  messageDirection : String
  method : String
  params : OptTy
  proposed : Bool
  result : OptTy

/-- Notification (`Notification`). -/
structure Notification where
  documentation : String
  messageDirection : String
  method : String
  params : OptTy
  proposed : Bool

/-- Version metadata (`MetaData`). -/
structure MetaData where
  version : String

/-- Top-level model (`Model`). -/
structure Model where
  metaData : MetaData
  requests : List Request
  notifications : List Notification
  structures : List Structure
  enumerations : List Enumeration
  typeAliases : List TypeAlias

end GoLsp

namespace GoLsp

/-! ### Name mapper and lookup indices (generator helpers) -/

/-- Well-known abbreviation replacements applied after initial
capitalization (`abbreviationPrefixes`): each pair is the mixed-case
form and its upper-case replacement. -/
def abbreviationPrefixes : List (List Char × List Char) :=
  [("Uri".data, "URI".data), ("Id".data, "ID".data), ("Json".data, "JSON".data),
   ("Utf".data, "UTF".data), ("Lsp".data, "LSP".data), ("Url".data, "URL".data),
   ("Html".data, "HTML".data), ("Css".data, "CSS".data)]

/-- Whole-name overrides for field names (`fieldNameOverrides`). -/
def fieldNameOverrides : List (String × String) :=
  [("uri", "URI"), ("id", "ID"), ("jsonrpc", "JSONRPC"),
   ("documentUri", "DocumentURI"), ("baseUri", "BaseURI"),
   ("rootUri", "RootURI"), ("resourceUri", "ResourceURI"),
   ("oldUri", "OldURI"), ("newUri", "NewURI"), ("scopeUri", "ScopeURI"),
   ("textDocument", "TextDocument")]

/-- Abbreviation pass of `GoFieldName`: the first matching entry whose
occurrence is followed by end-of-string or an upper-case rune wins. -/
def applyAbbreviations (result : List Char) : List (List Char × List Char) → List Char
  | [] => result
  | (mixed, upper) :: rest =>
    if mixed.isPrefixOf result then
      let tl := result.drop mixed.length
      match tl with
      | [] => upper
      | c :: _ => if c.isUpper then upper ++ tl else applyAbbreviations result rest
    else applyAbbreviations result rest

/-- Converts an LSP property name to an exported Go field name
(`GoFieldName`): whole-name override, else capitalize the first rune
and apply the abbreviation table. -/
def GoFieldName (lspName : String) : String :=
  if lspName = "" then ""
  else
    match (fieldNameOverrides.find? (fun p => p.1 == lspName)).map (fun p => p.2) with
    | some mapped => mapped
    | none => String.mk (applyAbbreviations (upFirst lspName.data) abbreviationPrefixes)

/-- Converts an LSP method string to a short Go method name
(`GoMethodName`): the part after the last slash, capitalized. -/
def GoMethodName (method : String) : String :=
  let name := (splitChar '/' method.data).getLastD []
  match name with
  | [] => ""
  | _ => String.mk (upFirst name)

/-- Converts an LSP method string to a fully-qualified Go method name
(`GoMethodNameFull`): strip a leading dollar-slash, split on slashes,
capitalize each non-empty segment, concatenate. -/
def GoMethodNameFull (method : String) : String :=
  let cleaned := trimLeading "$/".data method.data
  String.mk ((splitChar '/' cleaned).foldr
    (fun part acc => match part with | [] => acc | _ => upFirst part ++ acc) [])

/-- Produces a Go constant name from an enumeration name and a value
name (`GoEnumValueName`). -/
def GoEnumValueName (enumName valueName : String) : String :=
  match valueName.data with
  | [] => enumName
  | cs => enumName ++ String.mk (upFirst cs)

/-- JSON struct tag for a field (`JSONTag`), with `omitempty` for
optional fields. -/
def JSONTag (lspName : String) (optional : Bool) : String :=
  if optional then "`json:\"" ++ lspName ++ ",omitempty\"`"
  else "`json:\"" ++ lspName ++ "\"`"

/-- Direction filter for server methods (`IsServerMethod`). -/
def IsServerMethod (direction : String) : Bool :=
  direction == "clientToServer" || direction == "both"

/-- Direction filter for client methods (`IsClientMethod`). -/
def IsClientMethod (direction : String) : Bool :=
  direction == "serverToClient" || direction == "both"

/-- Maps LSP base type names to Go types (`resolveBaseType`). -/
def resolveBaseType (name : String) : String :=
  if name = "string" ∨ name = "RegExp" then "string"
  else if name = "DocumentUri" then "DocumentURI"
  else if name = "URI" then "URI"
  else if name = "integer" then "int32"
  else if name = "uinteger" then "uint32"
  else if name = "decimal" then "float64"
  else if name = "boolean" then "bool"
  else if name = "null" then "any"
  else if name = "LSPAny" ∨ name = "LSPObject" then "any"
  else if name = "LSPArray" then "[]any"
  else "any"

/-- Reports whether a Go type needs a pointer wrapper to represent a
nullable value (`needsPointerForNull`): pointers, slices, maps and
`any` already have nil as a value. -/
def needsPointerForNull (goType : String) : Bool :=
  if hasLeading "*".data goType.data ∨ hasLeading "[]".data goType.data ∨
      hasLeading "map[".data goType.data then false
  else if goType = "any" then false
  else true

/-- Converts an LSP method name into a Go constant name
(`methodConstName`): `Method` followed by the capitalized segments. -/
def methodConstName (method : String) : String :=
  let cleaned := trimLeading "$/".data method.data
  "Method" ++ String.mk ((splitChar '/' cleaned).foldr
    (fun part acc => match part with | [] => acc | _ => upFirst part ++ acc) [])

/-- Lookup in the structure index built by `NewGenerator`
(`g.structs`): the index is populated in order, so a later structure
with the same name overwrites an earlier one. -/
def lookupStruct : List Structure → String → Option Structure
  | [], _ => none
  | s :: rest, n =>
    match lookupStruct rest n with
    | some hit => some hit
    | none => if s.name == n then some s else none

/-! ### Type resolver (resolveGoType / resolveUnion / promoteLiteral) -/

/-- Mutable generator state threaded through type resolution and
emission: the promoted-literal map (`namedLiterals`, an association
list with map-overwrite insertion) and the promotion counter
(`literalCounter`). -/
structure GenState where
  namedLiterals : List (String × LiteralType)
  literalCounter : Nat

/-- Initial generator state (`NewGenerator` allocates empty). -/
def GenState.empty : GenState := ⟨[], 0⟩

/-- Map-style insertion into the literal map: overwrite the value if
the key is present, else append. -/
def insertLiteral (m : List (String × LiteralType)) (k : String) (v : LiteralType) :
    List (String × LiteralType) :=
  if m.any (fun p => p.1 == k) then
    m.map (fun p => if p.1 == k then (k, v) else p)
  else m ++ [(k, v)]

/-- Keys of the literal map in insertion order. -/
def literalKeys (m : List (String × LiteralType)) : List String :=
  m.map (fun p => p.1)

/-- Assigns a fresh name to an anonymous literal and registers it
(`promoteLiteral`); a nil literal resolves to `any` without touching
the state. -/
def promoteLiteral (lit : OptLit) (st : GenState) : String × GenState :=
  match lit with
  | OptLit.none => ("any", st)
  | OptLit.some l =>
    let c := st.literalCounter + 1
    let name := "Literal" ++ toString c
    (name, ⟨insertLiteral st.namedLiterals name l, c⟩)

/-- Detects the `null` member of a union (Go:
`item.Kind == "base" && item.Name == "null"`). -/
def isNullTy : Ty → Bool
  | Ty.base n => n == "null"
  | _ => false

/-- Filter removing `null` members from a union item slice (the first
loop of `resolveUnion`). -/
def filterNonNull : TyList → TyList
  | TyList.nil => TyList.nil
  | TyList.cons t ts =>
    if isNullTy t then filterNonNull ts else TyList.cons t (filterNonNull ts)

/-- Fuel-indexed embedding of `resolveGoType` (with `resolveUnion`
inlined at the `or` constructor).  The fuel only bounds the recursion
depth; `resolveTyFuel_stable` shows any fuel of at least `sizeOf t`
gives the same answer, so the wrapper `resolveTy` below computes the
Go function. -/
def resolveTyFuel : Nat → Ty → GenState → String × GenState
  | 0, _, st => ("any", st)
  | fuel + 1, t, st =>
    match t with
    | Ty.base name => (resolveBaseType name, st)
    | Ty.reference name => (name, st)
    | Ty.array element =>
      match element with
      | OptTy.none => ("[]" ++ "any", st)
      | OptTy.some e =>
        let r := resolveTyFuel fuel e st
        ("[]" ++ r.1, r.2)
    | Ty.map key value =>
      let rk :=
        match key with
        | OptTy.none => ("any", st)
        | OptTy.some k => resolveTyFuel fuel k st
      let rv :=
        match value with
        | OptTy.none => ("any", rk.2)
        | OptTy.some v => resolveTyFuel fuel v rk.2
      ("map[" ++ rk.1 ++ "]" ++ rv.1, rv.2)
    | Ty.or items =>
      let nonNull := filterNonNull items
      match nonNull with
      | TyList.cons t' TyList.nil =>
        let r := resolveTyFuel fuel t' st
        if decide ((filterNonNull items).length < items.length) && needsPointerForNull r.1 then
          ("*" ++ r.1, r.2)
        else (r.1, r.2)
      | _ => ("any", st)
    | Ty.and _ => ("any", st)
    | Ty.tuple _ => ("any", st)
    | Ty.literal lit => promoteLiteral lit st
    | Ty.stringLiteral _ => ("string", st)
    | Ty.integerLiteral _ => ("int32", st)
    | Ty.booleanLiteral _ => ("bool", st)
    | Ty.other _ => ("any", st)

mutual
/-- Structural size of a type node, used as resolver fuel.  Only the
positions the resolver recurses into are counted. -/
def Ty.size : Ty → Nat
  | Ty.array e => e.size + 1
  | Ty.map k v => k.size + v.size + 1
  | Ty.or items => items.size + 1
  | Ty.and items => items.size + 1
  | Ty.tuple items => items.size + 1
  | _ => 1

/-- Structural size of a nilable type node. -/
def OptTy.size : OptTy → Nat
  | OptTy.none => 1
  | OptTy.some t => t.size + 1

/-- Structural size of a type slice. -/
def TyList.size : TyList → Nat
  | TyList.nil => 1
  | TyList.cons t ts => t.size + ts.size + 1
end

/-- Embedding of `resolveGoType` on a (non-nil) type node.  The fuel
`t.size` strictly dominates the recursion depth. -/
def resolveTy (t : Ty) (st : GenState) : String × GenState :=
  resolveTyFuel t.size t st

/-- Embedding of `resolveGoType` including the nil-pointer guard. -/
def resolveGoType (t : OptTy) (st : GenState) : String × GenState :=
  match t with
  | OptTy.none => ("any", st)
  | OptTy.some ty => resolveTy ty st

/-- Wraps the resolved type in a pointer for optional fields unless it
is already nil-representable (`optionalType`). -/
def optionalType (goType : String) (optional : Bool) : String :=
  if !optional then goType
  else if needsPointerForNull goType then "*" ++ goType
  else goType

/-- Maps the enumeration base type to a Go type
(`resolveEnumBaseType`). -/
def resolveEnumBaseType (t : EnumBaseType) : String :=
  if t.name = "string" then "string"
  else if t.name = "integer" then "int32"
  else if t.name = "uinteger" then "uint32"
  else "string"

/-- Formats a numeric enumeration value (`formatNumericValue`):
float64 values are converted by Go `int64(val)`, truncation toward
zero, then formatted base 10; int64 and int are formatted directly;
any other value falls through Go `fmt.Sprintf` verb v. -/
def formatNumericValue : GoVal → String
  | GoVal.float q => toString (Int.tdiv q.num q.den)
  | GoVal.i64 n => toString n
  | GoVal.int n => toString n
  | GoVal.str s => s
  | GoVal.bool b => if b then "true" else "false"

end GoLsp

namespace GoLsp

/-! ### Property collector (collectProperties / collectPropertiesImpl)

The Go implementation threads a mutable per-query `visited` set through
the recursion and a per-level `seen` set for first-occurrence
de-duplication.  The embedding decrements an explicit fuel on every
call; `collectImpl_stable` (claim C6) shows the fuel used by
`collectProperties` is sufficient, which is the termination argument of
the original. -/

/-- Appends properties to an accumulated (result, seen) pair, skipping
names already seen — the inner loops of `collectPropertiesImpl`. -/
def addProps : List Property → List Property × List String → List Property × List String
  | [], acc => acc
  | p :: rest, (result, seen) =>
    if seen.contains p.name then addProps rest (result, seen)
    else addProps rest (result ++ [p], p.name :: seen)

mutual
/-- Embedding of `collectPropertiesImpl`: gathers own properties, then
the properties of each `extends` reference, then each `mixins`
reference, de-duplicating by name and guarding re-entry through the
visited set.  Returns the collected list and the final visited set. -/
def collectImpl : Nat → List Structure → Structure → List String →
    List Property × List String
  | 0, _, _, visited => ([], visited)
  | fuel + 1, ss, s, visited =>
    if visited.contains s.name then ([], visited)
    else
      let acc0 := addProps s.properties ([], [])
      let acc1 := collectEntries fuel ss s.extends_ (acc0.1, acc0.2, s.name :: visited)
      let acc2 := collectEntries fuel ss s.mixins acc1
      (acc2.1, acc2.2.2)

/-- Embedding of the `extends` / `mixins` loops of
`collectPropertiesImpl`: only `reference` entries that resolve in the
structure index contribute; their collected properties are appended
through the seen filter and the visited set is threaded on. -/
def collectEntries : Nat → List Structure → List Ty →
    List Property × List String × List String →
    List Property × List String × List String
  | 0, _, _, acc => acc
  | _ + 1, _, [], acc => acc
  | fuel + 1, ss, e :: rest, (result, seen, visited) =>
    match e with
    | Ty.reference nm =>
      match lookupStruct ss nm with
      | some base =>
        let sub := collectImpl fuel ss base visited
        let acc1 := addProps sub.1 (result, seen)
        collectEntries fuel ss rest (acc1.1, acc1.2, sub.2)
      | none => collectEntries fuel ss rest (result, seen, visited)
    | _ => collectEntries fuel ss rest (result, seen, visited)
end

/-- Largest `extends` plus `mixins` entry count over the index. -/
def maxEnt (ss : List Structure) : Nat :=
  ss.foldr (fun s a => max (s.extends_.length + s.mixins.length) a) 0

/-- Fuel budget for a recursion entered at a structure whose name has
at most `k` unvisited index names below it. -/
def fuelBound (ss : List Structure) (k : Nat) : Nat :=
  (k + 1) * (maxEnt ss + 3)

/-- Fuel budget for one `collectProperties` query, proved sufficient by
the stability theorem of claim C6. -/
def collectFuel (ss : List Structure) (s : Structure) : Nat :=
  fuelBound ss ss.length + s.extends_.length + s.mixins.length

/-- Embedding of `collectProperties`: runs the recursion with a fresh
visited set. -/
def collectProperties (ss : List Structure) (s : Structure) : List Property :=
  (collectImpl (collectFuel ss s) ss s []).1

/-! ### Method planner (methodInfo, disambiguateMethods, collect*Methods) -/

/-- Method record built for the Server or Client interface
(`methodInfo` in output.go). -/
structure MethodInfo where
  method : String
  goName : String
  signature : String
  doc : String
  isRequest : Bool
  paramsType : String
  resultType : String
deriving DecidableEq, Repr

/-- Fixed override map pinning legacy Go method names
(`methodNameOverrides`). -/
def methodNameOverrides : List (String × String) :=
  [("textDocument/didOpen", "DidOpen"),
   ("textDocument/didClose", "DidClose"),
   ("textDocument/didChange", "DidChange"),
   ("textDocument/didSave", "DidSave"),
   ("completionItem/resolve", "CompletionResolve"),
   ("codeLens/resolve", "CodeLensResolve"),
   ("documentLink/resolve", "DocumentLinkResolve"),
   ("codeAction/resolve", "CodeActionResolve"),
   ("inlayHint/resolve", "InlayHintResolve"),
   ("workspaceSymbol/resolve", "WorkspaceSymbolResolve"),
   ("textDocument/diagnostic", "Diagnostic"),
   ("textDocument/foldingRange", "FoldingRanges"),
   ("workspace/symbol", "Symbols"),
   ("textDocument/semanticTokens/full", "SemanticTokensFull"),
   ("textDocument/semanticTokens/full/delta", "SemanticTokensFullDelta"),
   ("textDocument/semanticTokens/range", "SemanticTokensRange"),
   ("window/workDoneProgress/cancel", "WorkDoneProgressCancel")]

/-- Override lookup by LSP method string. -/
def lookupOverride (method : String) : Option String :=
  (methodNameOverrides.find? (fun p => p.1 == method)).map (fun p => p.2)

/-- Renames a method record, rewriting the first occurrence of the old
name followed by an opening parenthesis inside the signature (the
`strings.Replace(..., 1)` calls of `disambiguateMethods`). -/
def renameMethod (m : MethodInfo) (newName : String) : MethodInfo :=
  { m with
    signature := replaceFirst m.signature (m.goName ++ "(") (newName ++ "(")
    goName := newName }

/-- Embedding of `disambiguateMethods`: the override pass pins
preferred names, then every un-pinned record whose post-override
`goName` occurs more than once in the whole slice is switched to its
fully-qualified name. -/
def disambiguateMethods (ms : List MethodInfo) : List MethodInfo :=
  let afterOverride : List (MethodInfo × Bool) :=
    ms.map (fun m =>
      match lookupOverride m.method with
      | some o => (renameMethod m o, true)
      | none => (m, false))
  let countOf : String → Nat := fun n =>
    (afterOverride.filter (fun p => p.1.goName == n)).length
  afterOverride.map (fun p =>
    if p.2 then p.1
    else if countOf p.1.goName > 1 then renameMethod p.1 (GoMethodNameFull p.1.method)
    else p.1)

/-- Embedding of `resolveMethodType`: nil gives the empty type, `any`
stays bare, and a resolved name present in the structure index is
rendered as a pointer. -/
def resolveMethodType (ssAll : List Structure) (t : OptTy) (st : GenState) :
    String × GenState :=
  match t with
  | OptTy.none => ("", st)
  | OptTy.some ty =>
    let r := resolveTy ty st
    if r.1 == "any" then ("any", r.2)
    else
      match lookupStruct ssAll r.1 with
      | some _ => ("*" ++ r.1, r.2)
      | none => (r.1, r.2)

/-- Embedding of `buildRequestMethod`. -/
def buildRequestMethod (ssAll : List Structure) (r : Request) (st : GenState) :
    MethodInfo × GenState :=
  let goName := GoMethodName r.method
  let rp := resolveMethodType ssAll r.params st
  let rr := resolveMethodType ssAll r.result rp.2
  let sig :=
    if rp.1 ≠ "" ∧ rr.1 ≠ "" then
      goName ++ "(ctx context.Context, params " ++ rp.1 ++ ") (" ++ rr.1 ++ ", error)"
    else if rp.1 ≠ "" then
      goName ++ "(ctx context.Context, params " ++ rp.1 ++ ") error"
    else if rr.1 ≠ "" then
      goName ++ "(ctx context.Context) (" ++ rr.1 ++ ", error)"
    else goName ++ "(ctx context.Context) error"
  (⟨r.method, goName, sig, r.documentation, true, rp.1, rr.1⟩, rr.2)

/-- Embedding of `buildNotificationMethod`. -/
def buildNotificationMethod (ssAll : List Structure) (n : Notification) (st : GenState) :
    MethodInfo × GenState :=
  let goName := GoMethodName n.method
  let rp := resolveMethodType ssAll n.params st
  let sig :=
    if rp.1 ≠ "" then goName ++ "(ctx context.Context, params " ++ rp.1 ++ ") error"
    else goName ++ "(ctx context.Context) error"
  (⟨n.method, goName, sig, n.documentation, false, rp.1, ""⟩, rp.2)

/-- Request loop of `collectServerMethods` / `collectClientMethods`,
parameterised on the direction filter. -/
def buildRequestMethods (dir : String → Bool) (ssAll : List Structure) :
    List Request → GenState → List MethodInfo × GenState
  | [], st => ([], st)
  | r :: rest, st =>
    if r.proposed || !dir r.messageDirection then buildRequestMethods dir ssAll rest st
    else
      let b := buildRequestMethod ssAll r st
      let tl := buildRequestMethods dir ssAll rest b.2
      (b.1 :: tl.1, tl.2)

/-- Notification loop of `collectServerMethods` /
`collectClientMethods`. -/
def buildNotificationMethods (dir : String → Bool) (ssAll : List Structure) :
    List Notification → GenState → List MethodInfo × GenState
  | [], st => ([], st)
  | n :: rest, st =>
    if n.proposed || !dir n.messageDirection then buildNotificationMethods dir ssAll rest st
    else
      let b := buildNotificationMethod ssAll n st
      let tl := buildNotificationMethods dir ssAll rest b.2
      (b.1 :: tl.1, tl.2)

/-- Order on method records used by `slices.SortFunc` with
`cmp.Compare` on the raw LSP method string. -/
def methodLe (a b : MethodInfo) : Prop := strLeB a.method b.method = true

instance : DecidableRel methodLe := fun a b => instDecidableEqBool (strLeB a.method b.method) true

/-- Final sort of method records by raw LSP method string
(`slices.SortFunc` with `cmp.Compare` on `method`).  The Go sort is
unstable but deterministic; insertion sort agrees with it on every
list whose keys make the order antisymmetric, and the claims quantify
over the sorted result only through the order. -/
def sortByMethod (ms : List MethodInfo) : List MethodInfo :=
  List.insertionSort methodLe ms

/-- Embedding of `collectServerMethods`. -/
def collectServerMethods (model : Model) (st : GenState) : List MethodInfo × GenState :=
  let a := buildRequestMethods IsServerMethod model.structures model.requests st
  let b := buildNotificationMethods IsServerMethod model.structures model.notifications a.2
  (sortByMethod (disambiguateMethods (a.1 ++ b.1)), b.2)

/-- Embedding of `collectClientMethods`. -/
def collectClientMethods (model : Model) (st : GenState) : List MethodInfo × GenState :=
  let a := buildRequestMethods IsClientMethod model.structures model.requests st
  let b := buildNotificationMethods IsClientMethod model.structures model.notifications a.2
  (sortByMethod (disambiguateMethods (a.1 ++ b.1)), b.2)

end GoLsp

namespace GoLsp

/-! ### Emitter (generateTypes / generateServer / generateClient)

The three output buffers are modelled at the granularity of emitted
items: every `Fprintf`-rendered declaration of output.go corresponds
to one trace item carrying exactly the data interpolated into the
format string, in emission order.  The byte buffers of the Go code are
a fixed rendering of these traces plus the header. -/

/-- Field line of an emitted aggregate (`\t%s %s %s\n` in
generateTypes): exported name, resolved Go type, JSON tag, preceded by
the field doc lines. -/
structure FieldItem where
  doc : String
  fieldName : String
  goType : String
  tag : String
deriving DecidableEq, Repr

/-- Initializer of an emitted enum constant: string-based enums quote
the raw value (`%q`), numeric enums interpolate
`formatNumericValue`. -/
inductive EnumInit where
  | quoted (v : GoVal)
  | numeric (s : String)
deriving DecidableEq, Repr

/-- Constant line of an emitted enumeration block. -/
structure ConstItem where
  doc : String
  constName : String
  enumName : String
  init : EnumInit
deriving DecidableEq, Repr

/-- One emitted declaration of the types file. -/
inductive TypesItem where
  | structDecl (doc name : String) (fields : List FieldItem)
  | enumDecl (doc name goType : String) (consts : List ConstItem)
  | aliasDecl (doc name rhs : String)
  | literalDecl (name : String) (fields : List FieldItem)
deriving DecidableEq, Repr

/-- File prologue written by `writeHeader`: copyright year, spec
version, package name and import set. -/
structure Header where
  year : Int
  version : String
  pkg : String
  imports : List String
deriving DecidableEq, Repr

/-- Emits the field list of an aggregate: proposed properties are
skipped before their type is resolved; the rest resolve left to right,
threading the literal-promotion state. -/
def emitFields : List Property → GenState → List FieldItem × GenState
  | [], st => ([], st)
  | p :: rest, st =>
    if p.proposed then emitFields rest st
    else
      let r := resolveTy p.type st
      let tl := emitFields rest r.2
      (⟨p.documentation, GoFieldName p.name, optionalType r.1 p.optional,
        JSONTag p.name p.optional⟩ :: tl.1, tl.2)

/-- Structure section of `generateTypes`: skips proposed structures,
collects the (own plus inherited) property list of each survivor and
emits its field lines. -/
def emitStructs (ssAll : List Structure) : List Structure → GenState →
    List TypesItem × GenState
  | [], st => ([], st)
  | s :: rest, st =>
    if s.proposed then emitStructs ssAll rest st
    else
      let f := emitFields (collectProperties ssAll s) st
      let tl := emitStructs ssAll rest f.2
      (TypesItem.structDecl s.documentation s.name f.1 :: tl.1, tl.2)

/-- Constant lines of one enumeration block: proposed values are
skipped; string-based enums quote, numeric enums format. -/
def emitEnumValues (enumName goType : String) : List EnumerationValue → List ConstItem
  | [] => []
  | v :: rest =>
    if v.proposed then emitEnumValues enumName goType rest
    else
      ⟨v.documentation, GoEnumValueName enumName v.name, enumName,
        if goType == "string" then EnumInit.quoted v.value
        else EnumInit.numeric (formatNumericValue v.value)⟩ ::
        emitEnumValues enumName goType rest

/-- Enumeration section of `generateTypes` (no type resolution, hence
no state). -/
def emitEnums : List Enumeration → List TypesItem
  | [] => []
  | e :: rest =>
    if e.proposed then emitEnums rest
    else
      let goType := resolveEnumBaseType e.type
      TypesItem.enumDecl e.documentation e.name goType
        (emitEnumValues e.name goType e.values) :: emitEnums rest

/-- Type-alias section of `generateTypes`. -/
def emitAliases : List TypeAlias → GenState → List TypesItem × GenState
  | [], st => ([], st)
  | a :: rest, st =>
    if a.proposed then emitAliases rest st
    else
      let r := resolveTy a.type st
      let tl := emitAliases rest r.2
      (TypesItem.aliasDecl a.documentation a.name r.1 :: tl.1, tl.2)

/-- Lookup in the promoted-literal map. -/
def lookupLiteral (m : List (String × LiteralType)) (k : String) : Option LiteralType :=
  (m.find? (fun p => p.1 == k)).map (fun p => p.2)

/-- Promoted-literal section of `generateTypes`: iterates the sorted
name snapshot; each literal body's fields are emitted through the same
resolver, so the state keeps threading (and may register further
literals that are not in the snapshot). -/
def emitLiterals : List String → GenState → List TypesItem × GenState
  | [], st => ([], st)
  | n :: rest, st =>
    match lookupLiteral st.namedLiterals n with
    | some lit =>
      let f := emitFields lit.properties st
      let tl := emitLiterals rest f.2
      (TypesItem.literalDecl n f.1 :: tl.1, tl.2)
    | none => emitLiterals rest st

/-- Order on strings used by Go `slices.Sort`, as a relation. -/
def strLe (a b : String) : Prop := strLeB a b = true

instance : DecidableRel strLe := fun a b => instDecidableEqBool (strLeB a b) true

/-- Sorts strings as Go `slices.Sort`. -/
def sortStrings (l : List String) : List String := List.insertionSort strLe l

/-- Types file trace. -/
structure TypesOut where
  header : Header
  items : List TypesItem
deriving DecidableEq, Repr

/-- Embedding of `generateTypes`.  `year` is the wall-clock year read
by `writeHeader`; `iter` is the unspecified iteration order of Go
`range` over the literal map, instantiated with any permutation of the
keys (the generator sorts the collected names before use). -/
def generateTypes (year : Int) (iter : List (String × LiteralType) → List String)
    (model : Model) (st : GenState) : TypesOut × GenState :=
  let a := emitStructs model.structures model.structures st
  let b := emitEnums model.enumerations
  let c := emitAliases model.typeAliases a.2
  let names := sortStrings (iter c.2.namedLiterals)
  let d := emitLiterals names c.2
  (⟨⟨year, model.metaData.version, "protocol", ["encoding/json"]⟩,
    a.1 ++ b ++ c.1 ++ d.1⟩, d.2)

/-- Method-name constant section of `generateServer`: constants are
deduplicated by constant name across the concatenated server and
client method lists, first occurrence wins. -/
def emitConsts : List MethodInfo → List String → List (String × String) × List String
  | [], emitted => ([], emitted)
  | m :: rest, emitted =>
    let cn := methodConstName m.method
    if cn ≠ "" ∧ !(emitted.contains cn) then
      let tl := emitConsts rest (cn :: emitted)
      ((cn, m.method) :: tl.1, tl.2)
    else emitConsts rest emitted

/-- Server file trace: constants, interface entries and dispatch
cases (the interface section and the switch section are both driven by
the same sorted server-method list). -/
structure ServerOut where
  header : Header
  constants : List (String × String)
  interfaceMethods : List MethodInfo
  dispatchCases : List MethodInfo
deriving DecidableEq, Repr

/-- Embedding of `generateServer`. -/
def generateServer (year : Int) (model : Model) (st : GenState) : ServerOut × GenState :=
  let sm := collectServerMethods model st
  let cm := collectClientMethods model sm.2
  let consts := emitConsts (sm.1 ++ cm.1) []
  (⟨⟨year, model.metaData.version, "protocol",
      ["context", "encoding/json", "go.lsp.dev/jsonrpc2"]⟩,
    consts.1, sm.1, sm.1⟩, cm.2)

/-- Client file trace: interface entries and dispatcher stubs (both
driven by the same sorted client-method list). -/
structure ClientOut where
  header : Header
  interfaceMethods : List MethodInfo
  stubMethods : List MethodInfo
deriving DecidableEq, Repr

/-- Embedding of `generateClient` (which rebuilds the client method
list, threading the promotion state further). -/
def generateClient (year : Int) (model : Model) (st : GenState) : ClientOut × GenState :=
  let cm := collectClientMethods model st
  (⟨⟨year, model.metaData.version, "protocol", ["context", "go.lsp.dev/jsonrpc2"]⟩,
    cm.1, cm.1⟩, cm.2)

/-- The three generated file traces (`GeneratedOutput`). -/
structure GeneratedOutput where
  types : TypesOut
  server : ServerOut
  client : ClientOut
deriving DecidableEq, Repr

/-- Embedding of `Generate`: types, then server, then client, sharing
one generator state. -/
def Generate (year : Int) (iter : List (String × LiteralType) → List String)
    (model : Model) : GeneratedOutput × GenState :=
  let t := generateTypes year iter model GenState.empty
  let s := generateServer year model t.2
  let c := generateClient year model s.2
  (⟨t.1, s.1, c.1⟩, c.2)

end GoLsp

namespace GoLsp

/-! ### Claim-side definitions

Definitions in this section follow the words of the specification or
of a claim (each doc comment says which); they are compared with the
source-translated definitions above by the theorems below. -/

/-- Truncation toward zero of a rational number, the specified reading
of the Go conversion `int64(v)` on an in-range float64: floor for
non-negative values, ceiling for negative ones. -/
def truncTowardZero (q : ℚ) : ℤ := if 0 ≤ q then ⌊q⌋ else ⌈q⌉

/-- Nil-representable Go types per the specification of nullable
lifting: pointers, slices, maps, and the opaque `any`. -/
def nilRepresentable (goType : String) : Bool :=
  hasLeading "*".data goType.data || hasLeading "[]".data goType.data ||
    hasLeading "map[".data goType.data || goType == "any"

/-- Post-override Go name of a method record: its pinned override name
when the override map has its LSP method, else its built short name. -/
def postOverrideName (m : MethodInfo) : String :=
  (lookupOverride m.method).getD m.goName

/-- Number of method records in `ms` whose post-override name is `n`
(the collision count actually used by `disambiguateMethods`). -/
def postNameCount (ms : List MethodInfo) (n : String) : Nat :=
  (ms.filter (fun m => postOverrideName m == n)).length

/-- Declarative per-record description of method-name disambiguation:
pinned records take the override name; an un-pinned record is switched
to its full name exactly when its short name occurs more than once
among the post-override names of the whole slice. -/
def disambiguateSpec (ms : List MethodInfo) (m : MethodInfo) : MethodInfo :=
  match lookupOverride m.method with
  | some o => renameMethod m o
  | none =>
    if postNameCount ms m.goName > 1 then renameMethod m (GoMethodNameFull m.method)
    else m

/-- Modelled from the claim C3 wording: identical to
`disambiguateMethods` except that the collision count is taken across
the remaining un-pinned records only. -/
def claimDisambiguateMethods (ms : List MethodInfo) : List MethodInfo :=
  let afterOverride : List (MethodInfo × Bool) :=
    ms.map (fun m =>
      match lookupOverride m.method with
      | some o => (renameMethod m o, true)
      | none => (m, false))
  let countOf : String → Nat := fun n =>
    (afterOverride.filter (fun p => !p.2 && p.1.goName == n)).length
  afterOverride.map (fun p =>
    if p.2 then p.1
    else if countOf p.1.goName > 1 then renameMethod p.1 (GoMethodNameFull p.1.method)
    else p.1)

/-- First-occurrence-wins de-duplication of properties by name, given
an initial set of already-taken names: the specified shape of the
collected field list (own properties, then inherited, later duplicates
dropped). -/
def dedupByName (seen : List String) : List Property → List Property
  | [] => []
  | p :: ps =>
    if seen.contains p.name then dedupByName seen ps
    else p :: dedupByName (p.name :: seen) ps

/-- Names taken after appending a property list through the seen
filter; this is the seen-set evolution of both `addProps` and
`dedupByName`. -/
def seenAfterAdd (seen : List String) : List Property → List String
  | [] => seen
  | p :: ps =>
    if seen.contains p.name then seenAfterAdd seen ps
    else seenAfterAdd (p.name :: seen) ps

mutual
/-- Modelled from the claim C1 wording: the raw collected field list —
the structure's own properties in declared order, then the properties
collected from each `extends` entry in declaration order, then those
from each `mixins` entry — with no name de-duplication at all (the
claim's "already seen is never re-added" is then a single
first-occurrence-wins pass, `dedupByName`, over this list).  Visited
threading and fuel mirror `collectImpl`. -/
def rawCollectImpl : Nat → List Structure → Structure → List String →
    List Property × List String
  | 0, _, _, visited => ([], visited)
  | fuel + 1, ss, s, visited =>
    if visited.contains s.name then ([], visited)
    else
      let e := rawCollectEntries fuel ss s.extends_ (s.name :: visited)
      let m := rawCollectEntries fuel ss s.mixins e.2
      (s.properties ++ e.1 ++ m.1, m.2)

/-- Raw counterpart of `collectEntries`: concatenates the collected
properties of each resolvable reference entry. -/
def rawCollectEntries : Nat → List Structure → List Ty → List String →
    List Property × List String
  | 0, _, _, visited => ([], visited)
  | _ + 1, _, [], visited => ([], visited)
  | fuel + 1, ss, e :: rest, visited =>
    match e with
    | Ty.reference nm =>
      match lookupStruct ss nm with
      | some base =>
        let sub := rawCollectImpl fuel ss base visited
        let tl := rawCollectEntries fuel ss rest sub.2
        (sub.1 ++ tl.1, tl.2)
      | none => rawCollectEntries fuel ss rest visited
    | _ => rawCollectEntries fuel ss rest visited
end

/-- Structure names of the index, in order. -/
def namesOf (ss : List Structure) : List String :=
  ss.map (fun s => s.name)

/-- Number of distinct index names not yet visited — the decreasing
measure of the collection recursion. -/
def unvisited (ss : List Structure) (v : List String) : Nat :=
  ((namesOf ss).dedup.filter (fun n => !(v.contains n))).length

/-- Entry of `extends` or `mixins` that contributes to collection: a
`reference` entry whose name resolves in the structure index. -/
def liveEntry (ss : List Structure) : Ty → Bool
  | Ty.reference nm => (lookupStruct ss nm).isSome
  | _ => false

/-- Emission of a field list with no proposed filter (claim C4
comparison point). -/
def emitFieldsAll : List Property → GenState → List FieldItem × GenState
  | [], st => ([], st)
  | p :: rest, st =>
    let r := resolveTy p.type st
    let tl := emitFieldsAll rest r.2
    (⟨p.documentation, GoFieldName p.name, optionalType r.1 p.optional,
      JSONTag p.name p.optional⟩ :: tl.1, tl.2)

/-- Structure section with no proposed filter (claim C4 comparison
point): the index used for property collection stays the full one. -/
def emitStructsAll (ssAll : List Structure) : List Structure → GenState →
    List TypesItem × GenState
  | [], st => ([], st)
  | s :: rest, st =>
    let f := emitFields (collectProperties ssAll s) st
    let tl := emitStructsAll ssAll rest f.2
    (TypesItem.structDecl s.documentation s.name f.1 :: tl.1, tl.2)

/-- Enumeration values with no proposed filter (claim C4 comparison
point). -/
def emitEnumValuesAll (enumName goType : String) : List EnumerationValue → List ConstItem
  | [] => []
  | v :: rest =>
    ⟨v.documentation, GoEnumValueName enumName v.name, enumName,
      if goType == "string" then EnumInit.quoted v.value
      else EnumInit.numeric (formatNumericValue v.value)⟩ ::
      emitEnumValuesAll enumName goType rest

/-- Enumeration section with no proposed filter on enumerations
(claim C4 comparison point). -/
def emitEnumsAll : List Enumeration → List TypesItem
  | [] => []
  | e :: rest =>
    let goType := resolveEnumBaseType e.type
    TypesItem.enumDecl e.documentation e.name goType
      (emitEnumValues e.name goType e.values) :: emitEnumsAll rest

/-- Alias section with no proposed filter (claim C4 comparison
point). -/
def emitAliasesAll : List TypeAlias → GenState → List TypesItem × GenState
  | [], st => ([], st)
  | a :: rest, st =>
    let r := resolveTy a.type st
    let tl := emitAliasesAll rest r.2
    (TypesItem.aliasDecl a.documentation a.name r.1 :: tl.1, tl.2)

/-- Request loop with the direction filter but no proposed filter
(claim C4 comparison point). -/
def buildRequestMethodsAll (dir : String → Bool) (ssAll : List Structure) :
    List Request → GenState → List MethodInfo × GenState
  | [], st => ([], st)
  | r :: rest, st =>
    if !dir r.messageDirection then buildRequestMethodsAll dir ssAll rest st
    else
      let b := buildRequestMethod ssAll r st
      let tl := buildRequestMethodsAll dir ssAll rest b.2
      (b.1 :: tl.1, tl.2)

/-- Notification loop with the direction filter but no proposed filter
(claim C4 comparison point). -/
def buildNotificationMethodsAll (dir : String → Bool) (ssAll : List Structure) :
    List Notification → GenState → List MethodInfo × GenState
  | [], st => ([], st)
  | n :: rest, st =>
    if !dir n.messageDirection then buildNotificationMethodsAll dir ssAll rest st
    else
      let b := buildNotificationMethod ssAll n st
      let tl := buildNotificationMethodsAll dir ssAll rest b.2
      (b.1 :: tl.1, tl.2)

/-- Names of the promoted-literal declarations of a types trace, in
emission order. -/
def literalDeclNames (items : List TypesItem) : List String :=
  items.filterMap (fun i =>
    match i with
    | TypesItem.literalDecl n _ => some n
    | _ => none)

end GoLsp

namespace GoLsp

/-! ## Supporting lemmas -/

/-- Every type node has positive size. -/
theorem Ty.tySize_pos (t : Ty) : 0 < t.size := by
  cases t <;> simp [Ty.size]

/-- Every nilable type node has positive size. -/
theorem OptTy.optTySize_pos (e : OptTy) : 0 < e.size := by
  cases e <;> simp [OptTy.size]

/-- Filtering nulls does not grow the size of a type slice. -/
theorem filterNonNull_size_le : ∀ l : TyList, (filterNonNull l).size ≤ l.size
  | TyList.nil => by simp [filterNonNull]
  | TyList.cons t ts => by
    have ih := filterNonNull_size_le ts
    by_cases h : isNullTy t
    · simp only [filterNonNull, h, if_pos]
      simp [TyList.size]
      omega
    · simp only [filterNonNull, h, if_neg, Bool.false_eq_true, not_false_eq_true]
      simp [TyList.size]
      omega

/-- The source predicate `needsPointerForNull` is the negation of the
specified nil-representability. -/
theorem needsPointerForNull_eq_not_nilRepresentable (s : String) :
    needsPointerForNull s = !(nilRepresentable s) := by
  by_cases h1 : hasLeading "*".data s.data <;>
    by_cases h2 : hasLeading "[]".data s.data <;>
      by_cases h3 : hasLeading "map[".data s.data <;>
        by_cases h4 : s = "any" <;>
          simp [needsPointerForNull, nilRepresentable, h1, h2, h3, h4]

/-- Fuel congruence for the type resolver: any two fuels at least the
size of the node give the same result. -/
theorem resolveTyFuel_congr : ∀ (n : Nat) (t : Ty) (st : GenState) (f₁ f₂ : Nat),
    t.size ≤ n → t.size ≤ f₁ → t.size ≤ f₂ →
    resolveTyFuel f₁ t st = resolveTyFuel f₂ t st := by
  intro n
  induction n using Nat.strong_induction_on with
  | _ n ih =>
    intro t st f₁ f₂ hn h₁ h₂
    obtain ⟨g₁, rfl⟩ : ∃ k, f₁ = k + 1 := ⟨f₁ - 1, by have := Ty.tySize_pos t; omega⟩
    obtain ⟨g₂, rfl⟩ : ∃ k, f₂ = k + 1 := ⟨f₂ - 1, by have := Ty.tySize_pos t; omega⟩
    cases t with
    | base name => simp [resolveTyFuel]
    | reference name => simp [resolveTyFuel]
    | array element =>
      cases element with
      | none => simp [resolveTyFuel]
      | some e =>
        have hsz : Ty.size (Ty.array (OptTy.some e)) = e.size + 2 := by
          simp [Ty.size, OptTy.size]
        rw [hsz] at hn h₁ h₂
        have he : resolveTyFuel g₁ e st = resolveTyFuel g₂ e st :=
          ih e.size (by omega) e st g₁ g₂ (le_refl _) (by omega) (by omega)
        simp [resolveTyFuel, he]
    | map key value =>
      have hsz : Ty.size (Ty.map key value) = key.size + value.size + 1 := by
        simp [Ty.size]
      rw [hsz] at hn h₁ h₂
      have hkpos : 0 < key.size := OptTy.optTySize_pos key
      have hvpos : 0 < value.size := OptTy.optTySize_pos value
      cases key with
      | none =>
        cases value with
        | none => simp [resolveTyFuel]
        | some v =>
          simp only [OptTy.size] at hn h₁ h₂
          have hv : resolveTyFuel g₁ v st = resolveTyFuel g₂ v st :=
            ih v.size (by omega) v st g₁ g₂ (le_refl _) (by omega) (by omega)
          simp [resolveTyFuel, hv]
      | some k =>
        simp only [OptTy.size] at hn h₁ h₂
        have hk : resolveTyFuel g₁ k st = resolveTyFuel g₂ k st :=
          ih k.size (by omega) k st g₁ g₂ (le_refl _) (by omega) (by omega)
        cases value with
        | none => simp [resolveTyFuel, hk]
        | some v =>
          simp only [OptTy.size] at hn h₁ h₂
          have hv : ∀ st2, resolveTyFuel g₁ v st2 = resolveTyFuel g₂ v st2 := fun st2 =>
            ih v.size (by omega) v st2 g₁ g₂ (le_refl _) (by omega) (by omega)
          simp [resolveTyFuel, hk, hv]
    | or items =>
      have hsz : Ty.size (Ty.or items) = items.size + 1 := by simp [Ty.size]
      rw [hsz] at hn h₁ h₂
      cases hfilt : filterNonNull items with
      | nil => simp [resolveTyFuel, hfilt]
      | cons t' rest =>
        cases rest with
        | cons t₂ rest₂ => simp [resolveTyFuel, hfilt]
        | nil =>
          have hle : (filterNonNull items).size ≤ items.size := filterNonNull_size_le items
          rw [hfilt] at hle
          have ht' : t'.size + 2 ≤ items.size := by
            simp [TyList.size] at hle
            omega
          have he : resolveTyFuel g₁ t' st = resolveTyFuel g₂ t' st :=
            ih t'.size (by omega) t' st g₁ g₂ (le_refl _) (by omega) (by omega)
          simp [resolveTyFuel, hfilt, he]
    | and items => simp [resolveTyFuel]
    | tuple items => simp [resolveTyFuel]
    | literal lit => simp [resolveTyFuel]
    | stringLiteral v => simp [resolveTyFuel]
    | integerLiteral v => simp [resolveTyFuel]
    | booleanLiteral v => simp [resolveTyFuel]
    | other kind => simp [resolveTyFuel]

/-- Resolver evaluation with any sufficient fuel equals `resolveTy`. -/
theorem resolveTyFuel_eq_resolveTy (t : Ty) (st : GenState) (f : Nat) (h : t.size ≤ f) :
    resolveTyFuel f t st = resolveTy t st :=
  resolveTyFuel_congr f t st f t.size h h (le_refl _)

/-- Truncated integer division of numerator by denominator is the
floor for non-negative rationals. -/
theorem tdiv_num_den_of_nonneg (q : ℚ) (h : 0 ≤ q) : Int.tdiv q.num q.den = ⌊q⌋ := by
  have hnum : 0 ≤ q.num := Rat.num_nonneg.mpr h
  have hden : (0 : ℤ) ≤ (q.den : ℤ) := Int.natCast_nonneg _
  rw [Int.tdiv_eq_ediv hnum hden, Rat.floor_def]

/-- Go `int64(v)` on a rational value is truncation toward zero. -/
theorem tdiv_num_den_eq_trunc (q : ℚ) : Int.tdiv q.num q.den = truncTowardZero q := by
  unfold truncTowardZero
  by_cases h : 0 ≤ q
  · rw [if_pos h, tdiv_num_den_of_nonneg q h]
  · rw [if_neg h]
    push_neg at h
    have hneg : 0 ≤ -q := by linarith
    have hrw : Int.tdiv q.num q.den = -Int.tdiv (-q).num (-q).den := by
      rw [Rat.num_neg_eq_neg_num, Rat.den_neg_eq_den, Int.neg_tdiv, neg_neg]
    rw [hrw, tdiv_num_den_of_nonneg (-q) hneg, Int.floor_neg, neg_neg]

end GoLsp

namespace GoLsp

/-! ## Claim theorems -/

/-- Claim C2: resolving an `or` union first filters `null` items; if
exactly one non-null item remains and the original union contained
`null`, the result is the pointer form of that item's resolved type
exactly when the resolved type is not already nil-representable
(pointers, lists, maps and `any` are left bare); if two or more
non-null items remain, the union collapses to the opaque `any`.  The
final conjunct ties the source predicate `needsPointerForNull` to the
specified nil-representability. -/
theorem claim_C2 (items : TyList) (st : GenState) :
    (∀ t', filterNonNull items = TyList.cons t' TyList.nil →
      (filterNonNull items).length < items.length →
      resolveTy (Ty.or items) st =
        (if nilRepresentable (resolveTy t' st).1 then (resolveTy t' st).1
          else "*" ++ (resolveTy t' st).1,
         (resolveTy t' st).2)) ∧
    (2 ≤ (filterNonNull items).length → resolveTy (Ty.or items) st = ("any", st)) ∧
    (∀ s, needsPointerForNull s = !(nilRepresentable s)) := by
  have hsz : Ty.size (Ty.or items) = items.size + 1 := by simp [Ty.size]
  refine ⟨?_, ?_, needsPointerForNull_eq_not_nilRepresentable⟩
  · intro t' hfilt hlt
    have hle : (filterNonNull items).size ≤ items.size := filterNonNull_size_le items
    rw [hfilt] at hle
    have ht' : t'.size + 2 ≤ items.size := by
      simp [TyList.size] at hle
      omega
    have hstab : resolveTyFuel items.size t' st = resolveTy t' st :=
      resolveTyFuel_eq_resolveTy t' st items.size (by omega)
    have hlt1 : (1 : Nat) < items.length := by
      simpa [hfilt, TyList.length] using hlt
    rw [resolveTy, hsz]
    simp only [resolveTyFuel, hfilt, TyList.length]
    rw [hstab]
    have hd : (0 + 1 : Nat) < items.length := by simpa using hlt1
    rw [decide_eq_true hd]
    simp only [Bool.true_and]
    rw [needsPointerForNull_eq_not_nilRepresentable]
    cases h : nilRepresentable (resolveTy t' st).1 <;> simp
  · intro h2
    rw [resolveTy, hsz]
    cases hfilt : filterNonNull items with
    | nil =>
      rw [hfilt] at h2
      simp [TyList.length] at h2
    | cons t' rest =>
      cases rest with
      | nil =>
        rw [hfilt] at h2
        simp [TyList.length] at h2
      | cons t₂ rest₂ => simp [resolveTyFuel, hfilt]

/-- Witness for claim C2 at the union `integer | null`. -/
theorem claim_C2_witness :
    filterNonNull (tyListOf [Ty.base "integer", Ty.base "null"]) =
      TyList.cons (Ty.base "integer") TyList.nil ∧
    (filterNonNull (tyListOf [Ty.base "integer", Ty.base "null"])).length <
      (tyListOf [Ty.base "integer", Ty.base "null"]).length ∧
    resolveTy (Ty.or (tyListOf [Ty.base "integer", Ty.base "null"])) GenState.empty =
      ("*int32", GenState.empty) := by
  refine ⟨rfl, by decide, ?_⟩
  exact ((claim_C2 (tyListOf [Ty.base "integer", Ty.base "null"]) GenState.empty).1
    (Ty.base "integer") rfl (by decide)).trans rfl

/-- Claim C10: for every numeric (non-string-based) enumeration value,
the emitted constant initializer is `formatNumericValue` of the raw
value; a float64 value is truncated toward zero before base-10
formatting, while int64 and int values are formatted exactly. -/
theorem claim_C10 :
    (∀ (enumName goType : String) (vs : List EnumerationValue) (c : ConstItem),
      goType ≠ "string" → c ∈ emitEnumValues enumName goType vs →
      ∃ v, v ∈ vs ∧ v.proposed = false ∧
        c.init = EnumInit.numeric (formatNumericValue v.value)) ∧
    (∀ q : ℚ, formatNumericValue (GoVal.float q) = toString (truncTowardZero q)) ∧
    (∀ n : ℤ, formatNumericValue (GoVal.i64 n) = toString n ∧
      formatNumericValue (GoVal.int n) = toString n) := by
  refine ⟨?_, ?_, fun n => ⟨rfl, rfl⟩⟩
  · intro enumName goType vs
    induction vs with
    | nil => intro c _ hc; simp [emitEnumValues] at hc
    | cons v rest ih =>
      intro c hne hc
      by_cases hp : v.proposed
      · rw [emitEnumValues, if_pos hp] at hc
        obtain ⟨w, hw, hwp, hwi⟩ := ih c hne hc
        exact ⟨w, List.mem_cons_of_mem _ hw, hwp, hwi⟩
      · rw [emitEnumValues, if_neg hp] at hc
        rcases List.mem_cons.mp hc with hhead | htail
        · refine ⟨v, List.mem_cons_self _ _, by simpa using hp, ?_⟩
          have hgo : (goType == "string") = false := by
            simpa using hne
          rw [hhead]
          simp [hgo]
        · obtain ⟨w, hw, hwp, hwi⟩ := ih c hne htail
          exact ⟨w, List.mem_cons_of_mem _ hw, hwp, hwi⟩
  · intro q
    show toString (Int.tdiv q.num q.den) = toString (truncTowardZero q)
    rw [tdiv_num_den_eq_trunc]

/-- Witness for claim C10: the fractional value 29/10 in an integer
enumeration is emitted as the constant initializer `2`. -/
theorem claim_C10_witness :
    (∃ v, v ∈ [EnumerationValue.mk "doc" "a" false (GoVal.float (mkRat 29 10))] ∧
      v.proposed = false ∧
      (ConstItem.mk "doc" "KA" "K" (EnumInit.numeric "2")).init =
        EnumInit.numeric (formatNumericValue v.value)) ∧
    formatNumericValue (GoVal.float (mkRat 29 10)) =
      toString (truncTowardZero (mkRat 29 10)) ∧
    toString (truncTowardZero (mkRat 29 10)) = "2" := by
  refine ⟨?_, claim_C10.2.1 (mkRat 29 10), by decide⟩
  exact claim_C10.1 "K" "int32" [EnumerationValue.mk "doc" "a" false (GoVal.float (mkRat 29 10))]
    (ConstItem.mk "doc" "KA" "K" (EnumInit.numeric "2")) (by decide) (by decide)

end GoLsp

namespace GoLsp

/-- Counterexample for claim C3: with the pinned
`textDocument/diagnostic → Diagnostic` and the un-pinned
`workspace/diagnostic` (short name `Diagnostic`), the claim's count
"across the remaining un-pinned set" is 1, so the claim leaves the
un-pinned method named `Diagnostic`; the code counts across the whole
post-override slice (count 2) and renames it to
`WorkspaceDiagnostic`. -/
theorem claim_C3_counterexample :
    claimDisambiguateMethods
        [⟨"textDocument/diagnostic", "Diagnostic", "Diagnostic(ctx context.Context) error",
          "", true, "", ""⟩,
         ⟨"workspace/diagnostic", "Diagnostic", "Diagnostic(ctx context.Context) error",
          "", true, "", ""⟩] ≠
      disambiguateMethods
        [⟨"textDocument/diagnostic", "Diagnostic", "Diagnostic(ctx context.Context) error",
          "", true, "", ""⟩,
         ⟨"workspace/diagnostic", "Diagnostic", "Diagnostic(ctx context.Context) error",
          "", true, "", ""⟩] ∧
    (claimDisambiguateMethods
        [⟨"textDocument/diagnostic", "Diagnostic", "Diagnostic(ctx context.Context) error",
          "", true, "", ""⟩,
         ⟨"workspace/diagnostic", "Diagnostic", "Diagnostic(ctx context.Context) error",
          "", true, "", ""⟩]).map MethodInfo.goName = ["Diagnostic", "Diagnostic"] ∧
    (disambiguateMethods
        [⟨"textDocument/diagnostic", "Diagnostic", "Diagnostic(ctx context.Context) error",
          "", true, "", ""⟩,
         ⟨"workspace/diagnostic", "Diagnostic", "Diagnostic(ctx context.Context) error",
          "", true, "", ""⟩]).map MethodInfo.goName = ["Diagnostic", "WorkspaceDiagnostic"] := by
  refine ⟨?_, by decide, by decide⟩
  decide

/-- Claim C3 as amended: disambiguation applies the override map
first (pinned records take and keep their pinned name even if it still
collides); an un-pinned record is renamed to its full-name form
exactly when its short name occurs more than once among the
post-override names of the whole method slice (pinned names
included). -/
theorem claim_C3_amended (ms : List MethodInfo) :
    disambiguateMethods ms = ms.map (disambiguateSpec ms) := by
  unfold disambiguateMethods
  rw [List.map_map]
  apply List.map_congr_left
  intro m _
  have hpost : ∀ x : MethodInfo,
      ((match lookupOverride x.method with
        | some o => (renameMethod x o, true)
        | none => (x, false)) : MethodInfo × Bool).1.goName = postOverrideName x := by
    intro x
    unfold postOverrideName
    cases h : lookupOverride x.method <;> simp [h, renameMethod]
  have hcount : ∀ n : String,
      ((ms.map (fun x =>
        match lookupOverride x.method with
        | some o => (renameMethod x o, true)
        | none => (x, false))).filter (fun p => p.1.goName == n)).length =
      postNameCount ms n := by
    intro n
    unfold postNameCount
    rw [List.filter_map, List.length_map]
    congr 1
    apply List.filter_congr
    intro x _
    simp only [Function.comp_apply, hpost x]
  simp only [Function.comp_apply]
  unfold disambiguateSpec
  cases h : lookupOverride m.method with
  | some o => simp [h]
  | none => simp [h, hcount]

end GoLsp

namespace GoLsp

/-- Boolean membership on string lists agrees with membership. -/
theorem contains_iff_mem (v : List String) (n : String) : v.contains n = true ↔ n ∈ v := by
  simp [List.contains, List.elem_eq_mem]

end GoLsp

namespace GoLsp

/-- Filtering with a stronger predicate keeps at most as many
elements. -/
theorem length_filter_mono {α : Type} (l : List α) (p q : α → Bool)
    (h : ∀ a, p a = true → q a = true) :
    (l.filter p).length ≤ (l.filter q).length := by
  induction l with
  | nil => simp
  | cons a rest ih =>
    by_cases hp : p a
    · rw [List.filter_cons_of_pos hp, List.filter_cons_of_pos (h a hp)]
      simpa using ih
    · rw [List.filter_cons_of_neg (by simpa using hp)]
      by_cases hq : q a
      · rw [List.filter_cons_of_pos hq]
        exact Nat.le_succ_of_le ih
      · rw [List.filter_cons_of_neg (by simpa using hq)]
        exact ih

/-- Growing the visited set cannot grow the unvisited measure. -/
theorem unvisited_mono (ss : List Structure) (v w : List String)
    (h : ∀ n, n ∈ v → n ∈ w) : unvisited ss w ≤ unvisited ss v := by
  apply length_filter_mono
  intro a ha
  simp only [Bool.not_eq_true'] at ha ⊢
  have hw : a ∉ w := fun hm => by
    simp [(contains_iff_mem w a).mpr hm] at ha
    exact ha hm
  have hv : a ∉ v := fun hm => hw (h a hm)
  cases hcv : v.contains a
  · rfl
  · exact absurd ((contains_iff_mem v a).mp hcv) hv

end GoLsp

namespace GoLsp

/-- Marking an unvisited index name strictly shrinks the measure. -/
theorem unvisited_insert_lt (ss : List Structure) (v : List String) (x : String)
    (hx : x ∈ namesOf ss) (hv : x ∉ v) :
    unvisited ss (x :: v) < unvisited ss v := by
  unfold unvisited
  have hxd : x ∈ (namesOf ss).dedup := List.mem_dedup.mpr hx
  have key : ∀ l : List String, x ∈ l →
      (l.filter (fun n => !((x :: v).contains n))).length <
      (l.filter (fun n => !(v.contains n))).length := by
    intro l hl
    induction l with
    | nil => cases hl
    | cons a rest ih =>
      by_cases hax : a = x
      · subst hax
        have h1 : ((a :: v).contains a) = true := by
          rw [contains_iff_mem]
          exact List.mem_cons_self _ _
        have h2 : (v.contains a) = false := by
          cases hc : v.contains a
          · rfl
          · exact absurd ((contains_iff_mem v a).mp hc) hv
        have hle : (rest.filter (fun n => !((a :: v).contains n))).length ≤
            (rest.filter (fun n => !(v.contains n))).length := by
          apply length_filter_mono
          intro b hb
          simp only [Bool.not_eq_true'] at hb ⊢
          cases hc : v.contains b
          · rfl
          · have hcc : (a :: v).contains b = true := by
              rw [contains_iff_mem]
              exact List.mem_cons_of_mem _ ((contains_iff_mem v b).mp hc)
            rw [hcc] at hb
            cases hb
        simp only [List.filter_cons, h1, h2, Bool.not_true, Bool.not_false]
        simp only [Bool.false_eq_true, if_false, if_true, List.length_cons]
        omega
      · have hmem : x ∈ rest := by
          rcases List.mem_cons.mp hl with h | h
          · exact absurd h.symm hax
          · exact h
        have hpred : ((x :: v).contains a) = (v.contains a) := by
          cases hc : v.contains a
          · cases hc2 : (x :: v).contains a
            · rfl
            · rcases List.mem_cons.mp ((contains_iff_mem _ a).mp hc2) with h | h
              · exact absurd h hax
              · rw [(contains_iff_mem v a).mpr h] at hc
                cases hc
          · rw [contains_iff_mem]
            exact List.mem_cons_of_mem _ ((contains_iff_mem v a).mp hc)
        have ihm := ih hmem
        cases hpa : v.contains a with
        | true =>
          simp only [List.filter_cons, hpred, hpa, Bool.not_true]
          simp only [Bool.false_eq_true, if_false]
          exact ihm
        | false =>
          simp only [List.filter_cons, hpred, hpa, Bool.not_false, if_true,
            List.length_cons]
          omega
  exact key _ hxd

/-- An unvisited index name forces a positive measure. -/
theorem unvisited_pos (ss : List Structure) (v : List String) (x : String)
    (hx : x ∈ namesOf ss) (hv : x ∉ v) : 0 < unvisited ss v := by
  have := unvisited_insert_lt ss v x hx hv
  omega

/-- The measure never exceeds the number of structures. -/
theorem unvisited_le_length (ss : List Structure) (v : List String) :
    unvisited ss v ≤ ss.length := by
  unfold unvisited
  calc ((namesOf ss).dedup.filter _).length
      ≤ (namesOf ss).dedup.length := List.length_filter_le _ _
    _ ≤ (namesOf ss).length := (List.dedup_sublist _).length_le
    _ = ss.length := by simp [namesOf]

/-- Index lookup returns an indexed structure carrying the looked-up
name. -/
theorem lookupStruct_mem : ∀ (ss : List Structure) (nm : String) (base : Structure),
    lookupStruct ss nm = some base → base ∈ ss ∧ base.name = nm
  | [], nm, base => by intro h; cases h
  | s :: rest, nm, base => by
    intro h
    rw [lookupStruct] at h
    cases hr : lookupStruct rest nm with
    | some hit =>
      rw [hr] at h
      cases h
      obtain ⟨hm, hn⟩ := lookupStruct_mem rest nm base hr
      exact ⟨List.mem_cons_of_mem _ hm, hn⟩
    | none =>
      rw [hr] at h
      by_cases hs : s.name == nm
      · rw [if_pos hs] at h
        cases h
        exact ⟨List.mem_cons_self _ _, by simpa using hs⟩
      · rw [if_neg hs] at h
        cases h

/-- Every indexed structure has at most `maxEnt` inheritance
entries. -/
theorem maxEnt_bound (ss : List Structure) (s : Structure) (h : s ∈ ss) :
    s.extends_.length + s.mixins.length ≤ maxEnt ss := by
  induction ss with
  | nil => cases h
  | cons a rest ih =>
    rw [maxEnt, List.foldr_cons]
    rcases List.mem_cons.mp h with rfl | hm
    · exact Nat.le_max_left _ _
    · exact Nat.le_trans (ih hm) (Nat.le_max_right _ _)

end GoLsp

namespace GoLsp

mutual
/-- The collection recursion only grows the visited set. -/
theorem collectImpl_vmono : ∀ (fuel : Nat) (ss : List Structure) (s : Structure)
    (v : List String) (n : String), n ∈ v → n ∈ (collectImpl fuel ss s v).2
  | 0, ss, s, v, n => fun h => by simpa [collectImpl] using h
  | fuel + 1, ss, s, v, n => fun h => by
    by_cases hv : v.contains s.name = true
    · have hv2 : s.name ∈ v := (contains_iff_mem _ _).mp hv
      simpa [collectImpl, hv, hv2] using h
    · have hv2 : s.name ∉ v := fun hm => hv ((contains_iff_mem _ _).mpr hm)
      have h1 := collectEntries_vmono fuel ss s.extends_
        (addProps s.properties ([], [])).1 (addProps s.properties ([], [])).2
        (s.name :: v) n (List.mem_cons_of_mem _ h)
      have h2 := collectEntries_vmono fuel ss s.mixins
        (collectEntries fuel ss s.extends_
          ((addProps s.properties ([], [])).1, (addProps s.properties ([], [])).2,
            s.name :: v)).1
        (collectEntries fuel ss s.extends_
          ((addProps s.properties ([], [])).1, (addProps s.properties ([], [])).2,
            s.name :: v)).2.1
        (collectEntries fuel ss s.extends_
          ((addProps s.properties ([], [])).1, (addProps s.properties ([], [])).2,
            s.name :: v)).2.2
        n h1
      simpa [collectImpl, hv, hv2] using h2

/-- The entry loops only grow the visited set. -/
theorem collectEntries_vmono : ∀ (fuel : Nat) (ss : List Structure) (es : List Ty)
    (r : List Property) (sn w : List String) (n : String),
    n ∈ w → n ∈ (collectEntries fuel ss es (r, sn, w)).2.2
  | 0, ss, es, r, sn, w, n => fun h => by simpa [collectEntries] using h
  | fuel + 1, ss, [], r, sn, w, n => fun h => by simpa [collectEntries] using h
  | fuel + 1, ss, e :: rest, r, sn, w, n => fun h => by
    cases e with
    | reference nm =>
      cases hlook : lookupStruct ss nm with
      | some base =>
        have h1 := collectImpl_vmono fuel ss base w n h
        have h2 := collectEntries_vmono fuel ss rest
          (addProps (collectImpl fuel ss base w).1 (r, sn)).1
          (addProps (collectImpl fuel ss base w).1 (r, sn)).2
          (collectImpl fuel ss base w).2 n h1
        simpa [collectEntries, hlook] using h2
      | none =>
        have h2 := collectEntries_vmono fuel ss rest r sn w n h
        simpa [collectEntries, hlook] using h2
    | base name => simpa [collectEntries] using collectEntries_vmono fuel ss rest r sn w n h
    | array e => simpa [collectEntries] using collectEntries_vmono fuel ss rest r sn w n h
    | map k vv => simpa [collectEntries] using collectEntries_vmono fuel ss rest r sn w n h
    | or is => simpa [collectEntries] using collectEntries_vmono fuel ss rest r sn w n h
    | and is => simpa [collectEntries] using collectEntries_vmono fuel ss rest r sn w n h
    | tuple is => simpa [collectEntries] using collectEntries_vmono fuel ss rest r sn w n h
    | literal l => simpa [collectEntries] using collectEntries_vmono fuel ss rest r sn w n h
    | stringLiteral sv =>
      simpa [collectEntries] using collectEntries_vmono fuel ss rest r sn w n h
    | integerLiteral iv =>
      simpa [collectEntries] using collectEntries_vmono fuel ss rest r sn w n h
    | booleanLiteral bv =>
      simpa [collectEntries] using collectEntries_vmono fuel ss rest r sn w n h
    | other k => simpa [collectEntries] using collectEntries_vmono fuel ss rest r sn w n h
end

end GoLsp

namespace GoLsp

/-- The fuel budget is at least 3 at every level. -/
theorem fuelBound_ge3 (ss : List Structure) (k : Nat) : 3 ≤ fuelBound ss k := by
  unfold fuelBound
  calc 3 = 1 * 3 := by omega
    _ ≤ (k + 1) * (maxEnt ss + 3) := Nat.mul_le_mul (by omega) (by omega)

/-- One level of fuel budget. -/
theorem fuelBound_succ (ss : List Structure) (k : Nat) :
    fuelBound ss (k + 1) = fuelBound ss k + (maxEnt ss + 3) := by
  unfold fuelBound
  ring

/-- Fuel congruence for the entry loops: starting from a visited set
with at most `k` unvisited index names, any two fuels meeting the
budget produce the same result.  This is the termination argument of
`collectPropertiesImpl`: the visited set bounds the recursion depth. -/
theorem collectEntries_congr : ∀ (k : Nat) (ss : List Structure) (es : List Ty)
    (r : List Property) (sn w : List String) (h₁ h₂ : Nat),
    unvisited ss w ≤ k →
    fuelBound ss k + maxEnt ss + 2 + es.length ≤ h₁ →
    fuelBound ss k + maxEnt ss + 2 + es.length ≤ h₂ →
    collectEntries h₁ ss es (r, sn, w) = collectEntries h₂ ss es (r, sn, w) := by
  intro k
  induction k using Nat.strong_induction_on with
  | _ k ihk =>
    intro ss es
    induction es with
    | nil =>
      intro r sn w h₁ h₂ hk hf₁ hf₂
      have h3 := fuelBound_ge3 ss k
      obtain ⟨g₁, rfl⟩ : ∃ g, h₁ = g + 1 := ⟨h₁ - 1, by omega⟩
      obtain ⟨g₂, rfl⟩ : ∃ g, h₂ = g + 1 := ⟨h₂ - 1, by omega⟩
      simp [collectEntries]
    | cons e rest ihes =>
      intro r sn w h₁ h₂ hk hf₁ hf₂
      have h3 := fuelBound_ge3 ss k
      simp only [List.length_cons] at hf₁ hf₂
      obtain ⟨g₁, rfl⟩ : ∃ g, h₁ = g + 1 := ⟨h₁ - 1, by omega⟩
      obtain ⟨g₂, rfl⟩ : ∃ g, h₂ = g + 1 := ⟨h₂ - 1, by omega⟩
      have hg₁ : fuelBound ss k + maxEnt ss + 2 + rest.length ≤ g₁ := by omega
      have hg₂ : fuelBound ss k + maxEnt ss + 2 + rest.length ≤ g₂ := by omega
      cases e with
      | reference nm =>
        cases hlook : lookupStruct ss nm with
        | none =>
          have hrec := ihes r sn w g₁ g₂ hk hg₁ hg₂
          simpa [collectEntries, hlook] using hrec
        | some base =>
          have hbase := lookupStruct_mem ss nm base hlook
          have hbn : base.name ∈ namesOf ss :=
            List.mem_map_of_mem (fun s => s.name) hbase.1
          have hent : base.extends_.length + base.mixins.length ≤ maxEnt ss :=
            maxEnt_bound ss base hbase.1
          have hsub : collectImpl g₁ ss base w = collectImpl g₂ ss base w := by
            obtain ⟨a₁, rfl⟩ : ∃ a, g₁ = a + 1 := ⟨g₁ - 1, by omega⟩
            obtain ⟨a₂, rfl⟩ : ∃ a, g₂ = a + 1 := ⟨g₂ - 1, by omega⟩
            by_cases hw : w.contains base.name = true
            · have hw2 : base.name ∈ w := (contains_iff_mem _ _).mp hw
              simp [collectImpl, hw, hw2]
            · have hw2 : base.name ∉ w := fun hm => hw ((contains_iff_mem _ _).mpr hm)
              have hkpos : 0 < unvisited ss w := unvisited_pos ss w base.name hbn hw2
              obtain ⟨k', rfl⟩ : ∃ k', k = k' + 1 := ⟨k - 1, by omega⟩
              have hfb := fuelBound_succ ss k'
              have hlt := unvisited_insert_lt ss w base.name hbn hw2
              have huv' : unvisited ss (base.name :: w) ≤ k' := by omega
              have hext := ihk k' (by omega) ss base.extends_
                (addProps base.properties ([], [])).1
                (addProps base.properties ([], [])).2
                (base.name :: w) a₁ a₂ huv' (by omega) (by omega)
              have hw'' : ∀ n, n ∈ (base.name :: w) →
                  n ∈ (collectEntries a₂ ss base.extends_
                    ((addProps base.properties ([], [])).1,
                      (addProps base.properties ([], [])).2, base.name :: w)).2.2 :=
                fun n hn => collectEntries_vmono a₂ ss base.extends_ _ _ _ n hn
              have huv'' : unvisited ss
                  (collectEntries a₂ ss base.extends_
                    ((addProps base.properties ([], [])).1,
                      (addProps base.properties ([], [])).2, base.name :: w)).2.2 ≤ k' :=
                le_trans (unvisited_mono ss _ _ hw'') huv'
              have hmix := ihk k' (by omega) ss base.mixins
                (collectEntries a₂ ss base.extends_
                  ((addProps base.properties ([], [])).1,
                    (addProps base.properties ([], [])).2, base.name :: w)).1
                (collectEntries a₂ ss base.extends_
                  ((addProps base.properties ([], [])).1,
                    (addProps base.properties ([], [])).2, base.name :: w)).2.1
                (collectEntries a₂ ss base.extends_
                  ((addProps base.properties ([], [])).1,
                    (addProps base.properties ([], [])).2, base.name :: w)).2.2
                a₁ a₂ huv'' (by omega) (by omega)
              simp only [collectImpl, hw, hw2, if_neg, Bool.false_eq_true,
                not_false_eq_true]
              rw [hext, hmix]
          have hw' : ∀ n, n ∈ w → n ∈ (collectImpl g₂ ss base w).2 :=
            fun n hn => collectImpl_vmono g₂ ss base w n hn
          have huvw : unvisited ss (collectImpl g₂ ss base w).2 ≤ k :=
            le_trans (unvisited_mono ss _ _ hw') hk
          have hrec := ihes
            (addProps (collectImpl g₂ ss base w).1 (r, sn)).1
            (addProps (collectImpl g₂ ss base w).1 (r, sn)).2
            (collectImpl g₂ ss base w).2 g₁ g₂ huvw hg₁ hg₂
          simp only [collectEntries, hlook]
          rw [hsub]
          exact hrec
      | base name =>
        simpa [collectEntries] using ihes r sn w g₁ g₂ hk hg₁ hg₂
      | array el =>
        simpa [collectEntries] using ihes r sn w g₁ g₂ hk hg₁ hg₂
      | map kk vv =>
        simpa [collectEntries] using ihes r sn w g₁ g₂ hk hg₁ hg₂
      | or is =>
        simpa [collectEntries] using ihes r sn w g₁ g₂ hk hg₁ hg₂
      | and is =>
        simpa [collectEntries] using ihes r sn w g₁ g₂ hk hg₁ hg₂
      | tuple is =>
        simpa [collectEntries] using ihes r sn w g₁ g₂ hk hg₁ hg₂
      | literal l =>
        simpa [collectEntries] using ihes r sn w g₁ g₂ hk hg₁ hg₂
      | stringLiteral sv =>
        simpa [collectEntries] using ihes r sn w g₁ g₂ hk hg₁ hg₂
      | integerLiteral iv =>
        simpa [collectEntries] using ihes r sn w g₁ g₂ hk hg₁ hg₂
      | booleanLiteral bv =>
        simpa [collectEntries] using ihes r sn w g₁ g₂ hk hg₁ hg₂
      | other kd =>
        simpa [collectEntries] using ihes r sn w g₁ g₂ hk hg₁ hg₂

end GoLsp

namespace GoLsp

/-- Fuel congruence for a whole collection query. -/
theorem collectImpl_congr (k : Nat) (ss : List Structure) (s : Structure)
    (v : List String) (f₁ f₂ : Nat) (hname : s.name ∈ namesOf ss)
    (hk : unvisited ss v ≤ k)
    (hf₁ : fuelBound ss k + s.extends_.length + s.mixins.length ≤ f₁)
    (hf₂ : fuelBound ss k + s.extends_.length + s.mixins.length ≤ f₂) :
    collectImpl f₁ ss s v = collectImpl f₂ ss s v := by
  have h3 := fuelBound_ge3 ss k
  obtain ⟨a₁, rfl⟩ : ∃ a, f₁ = a + 1 := ⟨f₁ - 1, by omega⟩
  obtain ⟨a₂, rfl⟩ : ∃ a, f₂ = a + 1 := ⟨f₂ - 1, by omega⟩
  by_cases hw : v.contains s.name = true
  · have hw2 : s.name ∈ v := (contains_iff_mem _ _).mp hw
    simp [collectImpl, hw, hw2]
  · have hw2 : s.name ∉ v := fun hm => hw ((contains_iff_mem _ _).mpr hm)
    have hkpos : 0 < unvisited ss v := unvisited_pos ss v s.name hname hw2
    obtain ⟨k', rfl⟩ : ∃ k', k = k' + 1 := ⟨k - 1, by omega⟩
    have hfb := fuelBound_succ ss k'
    have hlt := unvisited_insert_lt ss v s.name hname hw2
    have huv' : unvisited ss (s.name :: v) ≤ k' := by omega
    have hext := collectEntries_congr k' ss s.extends_
      (addProps s.properties ([], [])).1 (addProps s.properties ([], [])).2
      (s.name :: v) a₁ a₂ huv' (by omega) (by omega)
    have hw'' : ∀ n, n ∈ (s.name :: v) →
        n ∈ (collectEntries a₂ ss s.extends_
          ((addProps s.properties ([], [])).1,
            (addProps s.properties ([], [])).2, s.name :: v)).2.2 :=
      fun n hn => collectEntries_vmono a₂ ss s.extends_ _ _ _ n hn
    have huv'' : unvisited ss
        (collectEntries a₂ ss s.extends_
          ((addProps s.properties ([], [])).1,
            (addProps s.properties ([], [])).2, s.name :: v)).2.2 ≤ k' :=
      le_trans (unvisited_mono ss _ _ hw'') huv'
    have hmix := collectEntries_congr k' ss s.mixins
      (collectEntries a₂ ss s.extends_
        ((addProps s.properties ([], [])).1,
          (addProps s.properties ([], [])).2, s.name :: v)).1
      (collectEntries a₂ ss s.extends_
        ((addProps s.properties ([], [])).1,
          (addProps s.properties ([], [])).2, s.name :: v)).2.1
      (collectEntries a₂ ss s.extends_
        ((addProps s.properties ([], [])).1,
          (addProps s.properties ([], [])).2, s.name :: v)).2.2
      a₁ a₂ huv'' (by omega) (by omega)
    simp only [collectImpl, hw, hw2, if_neg, Bool.false_eq_true, not_false_eq_true]
    rw [hext, hmix]

/-- Claim C6: property collection terminates on every input model,
cyclic `extends`/`mixins` graphs included, with a finite result: the
re-entry guard returns the empty list for an already-visited
structure, and the fuel of the embedding is irrelevant from the
computed budget upward, which is the termination argument of the Go
recursion (each ancestor structure is visited at most once per
query). -/
theorem claim_C6 :
    (∀ (fuel : Nat) (ss : List Structure) (s : Structure) (v : List String),
      s.name ∈ v → collectImpl fuel ss s v = ([], v)) ∧
    (∀ (ss : List Structure) (s : Structure) (f : Nat),
      s.name ∈ namesOf ss → collectFuel ss s ≤ f →
      (collectImpl f ss s []).1 = collectProperties ss s) := by
  constructor
  · intro fuel ss s v hv
    cases fuel with
    | zero => simp [collectImpl]
    | succ g => simp [collectImpl, (contains_iff_mem v s.name).mpr hv, hv]
  · intro ss s f hname hf
    unfold collectProperties
    have := collectImpl_congr ss.length ss s [] f (collectFuel ss s) hname
      (unvisited_le_length ss []) (by unfold collectFuel at hf; omega)
      (by unfold collectFuel; omega)
    rw [this]

/-- Witness for claim C6 on the cyclic model where structure `A`
extends `B` and `B` extends `A`. -/
theorem claim_C6_witness :
    ("A" ∈ ["A", "Z"] ∧
      collectImpl 7
        [⟨"", [Ty.reference "B"], [], "A",
          [Property.mk "" "x" false false (Ty.base "integer")], false⟩,
         ⟨"", [Ty.reference "A"], [], "B",
          [Property.mk "" "y" false false (Ty.base "string")], false⟩]
        ⟨"", [Ty.reference "B"], [], "A",
          [Property.mk "" "x" false false (Ty.base "integer")], false⟩
        ["A", "Z"] = ([], ["A", "Z"])) ∧
    ("A" ∈ namesOf
        [⟨"", [Ty.reference "B"], [], "A",
          [Property.mk "" "x" false false (Ty.base "integer")], false⟩,
         ⟨"", [Ty.reference "A"], [], "B",
          [Property.mk "" "y" false false (Ty.base "string")], false⟩] ∧
      collectFuel
        [⟨"", [Ty.reference "B"], [], "A",
          [Property.mk "" "x" false false (Ty.base "integer")], false⟩,
         ⟨"", [Ty.reference "A"], [], "B",
          [Property.mk "" "y" false false (Ty.base "string")], false⟩]
        ⟨"", [Ty.reference "B"], [], "A",
          [Property.mk "" "x" false false (Ty.base "integer")], false⟩ ≤ 40 ∧
      (collectImpl 40
        [⟨"", [Ty.reference "B"], [], "A",
          [Property.mk "" "x" false false (Ty.base "integer")], false⟩,
         ⟨"", [Ty.reference "A"], [], "B",
          [Property.mk "" "y" false false (Ty.base "string")], false⟩]
        ⟨"", [Ty.reference "B"], [], "A",
          [Property.mk "" "x" false false (Ty.base "integer")], false⟩ []).1 =
      collectProperties
        [⟨"", [Ty.reference "B"], [], "A",
          [Property.mk "" "x" false false (Ty.base "integer")], false⟩,
         ⟨"", [Ty.reference "A"], [], "B",
          [Property.mk "" "y" false false (Ty.base "string")], false⟩]
        ⟨"", [Ty.reference "B"], [], "A",
          [Property.mk "" "x" false false (Ty.base "integer")], false⟩) := by
  refine ⟨⟨by decide, claim_C6.1 7 _ _ _ (by decide)⟩, by decide, by decide, ?_⟩
  exact claim_C6.2 _ _ 40 (by decide) (by decide)

end GoLsp

namespace GoLsp

/-- Removing an entry that is not a resolvable reference from an entry
list leaves the entry loop's result unchanged (given sufficient
fuel). -/
theorem collectEntries_remove (k : Nat) (ss : List Structure) (e : Ty)
    (hbad : liveEntry ss e = false) :
    ∀ (es₁ es₂ : List Ty) (r : List Property) (sn w : List String) (h₁ h₂ : Nat),
    unvisited ss w ≤ k →
    fuelBound ss k + maxEnt ss + 3 + es₁.length + es₂.length ≤ h₁ →
    fuelBound ss k + maxEnt ss + 2 + es₁.length + es₂.length ≤ h₂ →
    collectEntries h₁ ss (es₁ ++ e :: es₂) (r, sn, w) =
      collectEntries h₂ ss (es₁ ++ es₂) (r, sn, w) := by
  intro es₁
  induction es₁ with
  | nil =>
    intro es₂ r sn w h₁ h₂ hk hf₁ hf₂
    have h3 := fuelBound_ge3 ss k
    obtain ⟨g₁, rfl⟩ : ∃ g, h₁ = g + 1 := ⟨h₁ - 1, by omega⟩
    have hcong := collectEntries_congr k ss es₂ r sn w g₁ h₂ hk (by omega) (by omega)
    cases e with
    | reference nm =>
      cases hlook : lookupStruct ss nm with
      | some base => simp [liveEntry, hlook] at hbad
      | none => simpa [collectEntries, hlook] using hcong
    | base name => simpa [collectEntries] using hcong
    | array el => simpa [collectEntries] using hcong
    | map kk vv => simpa [collectEntries] using hcong
    | or is => simpa [collectEntries] using hcong
    | and is => simpa [collectEntries] using hcong
    | tuple is => simpa [collectEntries] using hcong
    | literal l => simpa [collectEntries] using hcong
    | stringLiteral sv => simpa [collectEntries] using hcong
    | integerLiteral iv => simpa [collectEntries] using hcong
    | booleanLiteral bv => simpa [collectEntries] using hcong
    | other kd => simpa [collectEntries] using hcong
  | cons e' rest ih =>
    intro es₂ r sn w h₁ h₂ hk hf₁ hf₂
    have h3 := fuelBound_ge3 ss k
    simp only [List.length_cons] at hf₁ hf₂
    obtain ⟨g₁, rfl⟩ : ∃ g, h₁ = g + 1 := ⟨h₁ - 1, by omega⟩
    obtain ⟨g₂, rfl⟩ : ∃ g, h₂ = g + 1 := ⟨h₂ - 1, by omega⟩
    have hg₁ : fuelBound ss k + maxEnt ss + 3 + rest.length + es₂.length ≤ g₁ := by omega
    have hg₂ : fuelBound ss k + maxEnt ss + 2 + rest.length + es₂.length ≤ g₂ := by omega
    cases e' with
    | reference nm =>
      cases hlook : lookupStruct ss nm with
      | none => simpa [collectEntries, hlook] using ih es₂ r sn w g₁ g₂ hk hg₁ hg₂
      | some base =>
        have hbase := lookupStruct_mem ss nm base hlook
        have hbn : base.name ∈ namesOf ss :=
          List.mem_map_of_mem (fun s => s.name) hbase.1
        have hent : base.extends_.length + base.mixins.length ≤ maxEnt ss :=
          maxEnt_bound ss base hbase.1
        have hsub : collectImpl g₁ ss base w = collectImpl g₂ ss base w :=
          collectImpl_congr k ss base w g₁ g₂ hbn hk (by omega) (by omega)
        have hw' : ∀ n, n ∈ w → n ∈ (collectImpl g₂ ss base w).2 :=
          fun n hn => collectImpl_vmono g₂ ss base w n hn
        have huvw : unvisited ss (collectImpl g₂ ss base w).2 ≤ k :=
          le_trans (unvisited_mono ss _ _ hw') hk
        have hrec := ih es₂
          (addProps (collectImpl g₂ ss base w).1 (r, sn)).1
          (addProps (collectImpl g₂ ss base w).1 (r, sn)).2
          (collectImpl g₂ ss base w).2 g₁ g₂ huvw hg₁ hg₂
        simp only [List.cons_append, collectEntries, hlook]
        rw [hsub]
        exact hrec
    | base name => simpa [collectEntries] using ih es₂ r sn w g₁ g₂ hk hg₁ hg₂
    | array el => simpa [collectEntries] using ih es₂ r sn w g₁ g₂ hk hg₁ hg₂
    | map kk vv => simpa [collectEntries] using ih es₂ r sn w g₁ g₂ hk hg₁ hg₂
    | or is => simpa [collectEntries] using ih es₂ r sn w g₁ g₂ hk hg₁ hg₂
    | and is => simpa [collectEntries] using ih es₂ r sn w g₁ g₂ hk hg₁ hg₂
    | tuple is => simpa [collectEntries] using ih es₂ r sn w g₁ g₂ hk hg₁ hg₂
    | literal l => simpa [collectEntries] using ih es₂ r sn w g₁ g₂ hk hg₁ hg₂
    | stringLiteral sv => simpa [collectEntries] using ih es₂ r sn w g₁ g₂ hk hg₁ hg₂
    | integerLiteral iv => simpa [collectEntries] using ih es₂ r sn w g₁ g₂ hk hg₁ hg₂
    | booleanLiteral bv => simpa [collectEntries] using ih es₂ r sn w g₁ g₂ hk hg₁ hg₂
    | other kd => simpa [collectEntries] using ih es₂ r sn w g₁ g₂ hk hg₁ hg₂

end GoLsp

namespace GoLsp

/-- Claim C9: an `extends` or `mixins` entry that is not a `reference`
or whose name is absent from the structure index contributes no
properties and causes no error — the collected field list is the same
as if the entry were not present. -/
theorem claim_C9 (ss : List Structure) (s : Structure) (e : Ty) (l₁ l₂ : List Ty)
    (hname : s.name ∈ namesOf ss) (hbad : liveEntry ss e = false) :
    collectProperties ss { s with extends_ := l₁ ++ e :: l₂ } =
      collectProperties ss { s with extends_ := l₁ ++ l₂ } ∧
    collectProperties ss { s with mixins := l₁ ++ e :: l₂ } =
      collectProperties ss { s with mixins := l₁ ++ l₂ } := by
  have hL : 1 ≤ ss.length := by
    cases ss with
    | nil => simp [namesOf] at hname
    | cons a rest => simp
  obtain ⟨L', hLeq⟩ : ∃ L', ss.length = L' + 1 := ⟨ss.length - 1, by omega⟩
  have hfb := fuelBound_succ ss L'
  have huv0 : unvisited ss [] ≤ ss.length := unvisited_le_length ss []
  have hvlt : unvisited ss [s.name] < unvisited ss [] :=
    unvisited_insert_lt ss [] s.name hname (by simp)
  have huv1 : unvisited ss [s.name] ≤ L' := by omega
  have hge3 := fuelBound_ge3 ss ss.length
  constructor
  · obtain ⟨a₁, ha₁⟩ : ∃ a, collectFuel ss { s with extends_ := l₁ ++ e :: l₂ } = a + 1 :=
      ⟨collectFuel ss { s with extends_ := l₁ ++ e :: l₂ } - 1, by
        unfold collectFuel
        omega⟩
    obtain ⟨a₂, ha₂⟩ : ∃ a, collectFuel ss { s with extends_ := l₁ ++ l₂ } = a + 1 :=
      ⟨collectFuel ss { s with extends_ := l₁ ++ l₂ } - 1, by
        unfold collectFuel
        omega⟩
    have hA₁ : a₁ + 1 =
        fuelBound ss (L' + 1) + (l₁.length + l₂.length + 1) + s.mixins.length := by
      rw [← ha₁, ← hLeq]
      unfold collectFuel
      simp <;> omega
    have hA₂ : a₂ + 1 =
        fuelBound ss (L' + 1) + (l₁.length + l₂.length) + s.mixins.length := by
      rw [← ha₂, ← hLeq]
      unfold collectFuel
      simp <;> omega
    have hrem := collectEntries_remove L' ss e hbad l₁ l₂
      (addProps s.properties ([], [])).1 (addProps s.properties ([], [])).2
      [s.name] a₁ a₂ huv1 (by omega) (by omega)
    have hw' : ∀ n, n ∈ [s.name] →
        n ∈ (collectEntries a₂ ss (l₁ ++ l₂)
          ((addProps s.properties ([], [])).1, (addProps s.properties ([], [])).2,
            [s.name])).2.2 :=
      fun n hn => collectEntries_vmono a₂ ss (l₁ ++ l₂) _ _ _ n hn
    have huv2 : unvisited ss
        (collectEntries a₂ ss (l₁ ++ l₂)
          ((addProps s.properties ([], [])).1, (addProps s.properties ([], [])).2,
            [s.name])).2.2 ≤ L' :=
      le_trans (unvisited_mono ss _ _ hw') huv1
    have hmix := collectEntries_congr L' ss s.mixins
      (collectEntries a₂ ss (l₁ ++ l₂)
        ((addProps s.properties ([], [])).1, (addProps s.properties ([], [])).2,
          [s.name])).1
      (collectEntries a₂ ss (l₁ ++ l₂)
        ((addProps s.properties ([], [])).1, (addProps s.properties ([], [])).2,
          [s.name])).2.1
      (collectEntries a₂ ss (l₁ ++ l₂)
        ((addProps s.properties ([], [])).1, (addProps s.properties ([], [])).2,
          [s.name])).2.2
      a₁ a₂ huv2 (by omega) (by omega)
    unfold collectProperties
    rw [ha₁, ha₂]
    simp only [collectImpl, List.contains, List.elem, List.not_mem_nil, if_false,
      Bool.false_eq_true]
    rw [hrem, hmix]
  · obtain ⟨a₁, ha₁⟩ : ∃ a, collectFuel ss { s with mixins := l₁ ++ e :: l₂ } = a + 1 :=
      ⟨collectFuel ss { s with mixins := l₁ ++ e :: l₂ } - 1, by
        unfold collectFuel
        omega⟩
    obtain ⟨a₂, ha₂⟩ : ∃ a, collectFuel ss { s with mixins := l₁ ++ l₂ } = a + 1 :=
      ⟨collectFuel ss { s with mixins := l₁ ++ l₂ } - 1, by
        unfold collectFuel
        omega⟩
    have hA₁ : a₁ + 1 =
        fuelBound ss (L' + 1) + s.extends_.length + (l₁.length + l₂.length + 1) := by
      rw [← ha₁, ← hLeq]
      unfold collectFuel
      simp <;> omega
    have hA₂ : a₂ + 1 =
        fuelBound ss (L' + 1) + s.extends_.length + (l₁.length + l₂.length) := by
      rw [← ha₂, ← hLeq]
      unfold collectFuel
      simp <;> omega
    have hext := collectEntries_congr L' ss s.extends_
      (addProps s.properties ([], [])).1 (addProps s.properties ([], [])).2
      [s.name] a₁ a₂ huv1 (by omega) (by omega)
    have hw' : ∀ n, n ∈ [s.name] →
        n ∈ (collectEntries a₂ ss s.extends_
          ((addProps s.properties ([], [])).1, (addProps s.properties ([], [])).2,
            [s.name])).2.2 :=
      fun n hn => collectEntries_vmono a₂ ss s.extends_ _ _ _ n hn
    have huv2 : unvisited ss
        (collectEntries a₂ ss s.extends_
          ((addProps s.properties ([], [])).1, (addProps s.properties ([], [])).2,
            [s.name])).2.2 ≤ L' :=
      le_trans (unvisited_mono ss _ _ hw') huv1
    have hrem := collectEntries_remove L' ss e hbad l₁ l₂
      (collectEntries a₂ ss s.extends_
        ((addProps s.properties ([], [])).1, (addProps s.properties ([], [])).2,
          [s.name])).1
      (collectEntries a₂ ss s.extends_
        ((addProps s.properties ([], [])).1, (addProps s.properties ([], [])).2,
          [s.name])).2.1
      (collectEntries a₂ ss s.extends_
        ((addProps s.properties ([], [])).1, (addProps s.properties ([], [])).2,
          [s.name])).2.2
      a₁ a₂ huv2 (by omega) (by omega)
    unfold collectProperties
    rw [ha₁, ha₂]
    simp only [collectImpl, List.contains, List.elem, List.not_mem_nil, if_false,
      Bool.false_eq_true]
    rw [hext, hrem]

/-- Witness for claim C9: a `base`-kind entry and an unresolvable
reference in `extends` contribute nothing. -/
theorem claim_C9_witness :
    ("A" ∈ namesOf [⟨"", [], [], "A",
        [Property.mk "" "x" false false (Ty.base "integer")], false⟩] ∧
      liveEntry [⟨"", [], [], "A",
        [Property.mk "" "x" false false (Ty.base "integer")], false⟩]
        (Ty.reference "Missing") = false) ∧
    collectProperties [⟨"", [], [], "A",
        [Property.mk "" "x" false false (Ty.base "integer")], false⟩]
      { (⟨"", [], [], "A",
          [Property.mk "" "x" false false (Ty.base "integer")], false⟩ : Structure)
        with extends_ := [] ++ Ty.reference "Missing" :: [] } =
      collectProperties [⟨"", [], [], "A",
          [Property.mk "" "x" false false (Ty.base "integer")], false⟩]
        { (⟨"", [], [], "A",
            [Property.mk "" "x" false false (Ty.base "integer")], false⟩ : Structure)
          with extends_ := [] ++ [] } := by
  refine ⟨⟨by decide, by decide⟩, ?_⟩
  exact (claim_C9 _ _ (Ty.reference "Missing") [] [] (by decide) (by decide)).1

end GoLsp

namespace GoLsp

/-- Boolean membership in a cons cell. -/
theorem contains_cons (t : List String) (a n : String) :
    ((a :: t).contains n) = ((n == a) || t.contains n) := by
  rcases h : (n == a) with _ | _ <;> simp [List.contains, List.elem, h]

/-- The incremental seen-filtered append is the first-occurrence
de-duplication of the appended list. -/
theorem addProps_eq : ∀ (ps : List Property) (result : List Property) (seen : List String),
    addProps ps (result, seen) = (result ++ dedupByName seen ps, seenAfterAdd seen ps)
  | [], result, seen => by simp [addProps, dedupByName, seenAfterAdd]
  | p :: ps, result, seen => by
    by_cases h : seen.contains p.name
    · simp only [addProps, dedupByName, seenAfterAdd, h, if_pos]
      exact addProps_eq ps result seen
    · simp only [addProps, dedupByName, seenAfterAdd, h, if_neg, Bool.false_eq_true,
        not_false_eq_true]
      rw [addProps_eq ps (result ++ [p]) (p.name :: seen)]
      simp

/-- De-duplication splits over append. -/
theorem dedupByName_append : ∀ (xs ys : List Property) (seen : List String),
    dedupByName seen (xs ++ ys) =
      dedupByName seen xs ++ dedupByName (seenAfterAdd seen xs) ys
  | [], ys, seen => by simp [dedupByName, seenAfterAdd]
  | x :: xs, ys, seen => by
    by_cases h : seen.contains x.name
    · simp only [List.cons_append, dedupByName, seenAfterAdd, h, if_pos]
      exact dedupByName_append xs ys seen
    · simp only [List.cons_append, dedupByName, seenAfterAdd, h, if_neg,
        Bool.false_eq_true, not_false_eq_true, List.append_eq]
      rw [dedupByName_append xs ys (x.name :: seen)]

/-- Seen-set evolution splits over append. -/
theorem seenAfterAdd_append : ∀ (xs ys : List Property) (seen : List String),
    seenAfterAdd seen (xs ++ ys) = seenAfterAdd (seenAfterAdd seen xs) ys
  | [], ys, seen => by simp [seenAfterAdd]
  | x :: xs, ys, seen => by
    by_cases h : seen.contains x.name
    · simp only [List.cons_append, seenAfterAdd, h, if_pos]
      exact seenAfterAdd_append xs ys seen
    · simp only [List.cons_append, seenAfterAdd, h, if_neg, Bool.false_eq_true,
        not_false_eq_true, List.append_eq]
      exact seenAfterAdd_append xs ys (x.name :: seen)

/-- De-duplicating an already de-duplicated list under a larger seen
set is one de-duplication. -/
theorem dedupByName_dedupByName : ∀ (xs : List Property) (s t : List String),
    (∀ n, t.contains n = true → s.contains n = true) →
    dedupByName s (dedupByName t xs) = dedupByName s xs
  | [], s, t, _ => by simp [dedupByName]
  | x :: xs, s, t, h => by
    have hlift : ∀ n, (x.name :: t).contains n = true → (x.name :: s).contains n = true := by
      intro n hn
      rw [contains_iff_mem] at hn ⊢
      rcases List.mem_cons.mp hn with heq | hm
      · rw [heq]
        exact List.mem_cons_self _ _
      · exact List.mem_cons_of_mem _
          ((contains_iff_mem s n).mp (h n ((contains_iff_mem t n).mpr hm)))
    have hdrop : ∀ n, (x.name :: t).contains n = true → s.contains n = true → True := fun _ _ _ => trivial
    by_cases ht : t.contains x.name
    · rw [dedupByName, if_pos ht, dedupByName, if_pos (h _ ht)]
      exact dedupByName_dedupByName xs s t h
    · rw [dedupByName, if_neg (by simpa using ht)]
      by_cases hs : s.contains x.name
      · rw [dedupByName, if_pos hs, dedupByName, if_pos hs]
        refine dedupByName_dedupByName xs s (x.name :: t) ?_
        intro n hn
        rw [contains_iff_mem] at hn
        rcases List.mem_cons.mp hn with heq | hm
        · rw [heq]
          exact hs
        · exact h n ((contains_iff_mem t n).mpr hm)
      · rw [dedupByName, if_neg hs, dedupByName, if_neg hs]
        congr 1
        exact dedupByName_dedupByName xs (x.name :: s) (x.name :: t) hlift

/-- Seen-set evolution over a de-duplicated list under a larger seen
set. -/
theorem seenAfterAdd_dedupByName : ∀ (xs : List Property) (s t : List String),
    (∀ n, t.contains n = true → s.contains n = true) →
    seenAfterAdd s (dedupByName t xs) = seenAfterAdd s xs
  | [], s, t, _ => by simp [dedupByName, seenAfterAdd]
  | x :: xs, s, t, h => by
    have hlift : ∀ n, (x.name :: t).contains n = true → (x.name :: s).contains n = true := by
      intro n hn
      rw [contains_iff_mem] at hn ⊢
      rcases List.mem_cons.mp hn with heq | hm
      · rw [heq]
        exact List.mem_cons_self _ _
      · exact List.mem_cons_of_mem _
          ((contains_iff_mem s n).mp (h n ((contains_iff_mem t n).mpr hm)))
    by_cases ht : t.contains x.name
    · rw [dedupByName, if_pos ht, seenAfterAdd, if_pos (h _ ht)]
      exact seenAfterAdd_dedupByName xs s t h
    · rw [dedupByName, if_neg (by simpa using ht)]
      by_cases hs : s.contains x.name
      · rw [seenAfterAdd, if_pos hs, seenAfterAdd, if_pos hs]
        refine seenAfterAdd_dedupByName xs s (x.name :: t) ?_
        intro n hn
        rw [contains_iff_mem] at hn
        rcases List.mem_cons.mp hn with heq | hm
        · rw [heq]
          exact hs
        · exact h n ((contains_iff_mem t n).mpr hm)
      · rw [seenAfterAdd, if_neg hs, seenAfterAdd, if_neg hs]
        exact seenAfterAdd_dedupByName xs (x.name :: s) (x.name :: t) hlift

end GoLsp

namespace GoLsp

mutual
/-- The incremental first-occurrence filtering of `collectImpl` equals
one de-duplication pass over the raw (unfiltered) collection. -/
theorem collectImpl_dedup : ∀ (fuel : Nat) (ss : List Structure) (s : Structure)
    (v : List String),
    collectImpl fuel ss s v =
      (dedupByName [] (rawCollectImpl fuel ss s v).1, (rawCollectImpl fuel ss s v).2)
  | 0, ss, s, v => by simp [collectImpl, rawCollectImpl, dedupByName]
  | fuel + 1, ss, s, v => by
    by_cases hv : v.contains s.name = true
    · have hv2 : s.name ∈ v := (contains_iff_mem _ _).mp hv
      simp [collectImpl, rawCollectImpl, hv, hv2, dedupByName]
    · have hv2 : s.name ∉ v := fun hm => hv ((contains_iff_mem _ _).mpr hm)
      have h0 : addProps s.properties ([], []) =
          (dedupByName [] s.properties, seenAfterAdd [] s.properties) := by
        simpa using addProps_eq s.properties [] []
      have h1 := collectEntries_dedup fuel ss s.extends_
        (dedupByName [] s.properties) (seenAfterAdd [] s.properties) (s.name :: v)
      have h2 := collectEntries_dedup fuel ss s.mixins
        (dedupByName [] s.properties ++
          dedupByName (seenAfterAdd [] s.properties)
            (rawCollectEntries fuel ss s.extends_ (s.name :: v)).1)
        (seenAfterAdd (seenAfterAdd [] s.properties)
          (rawCollectEntries fuel ss s.extends_ (s.name :: v)).1)
        (rawCollectEntries fuel ss s.extends_ (s.name :: v)).2
      simp only [collectImpl, rawCollectImpl, hv, hv2, if_neg, Bool.false_eq_true,
        not_false_eq_true, h0]
      rw [h1, h2]
      rw [dedupByName_append, dedupByName_append, seenAfterAdd_append]

/-- The entry loops under incremental filtering equal raw collection
followed by one de-duplication pass against the accumulated seen
set. -/
theorem collectEntries_dedup : ∀ (fuel : Nat) (ss : List Structure) (es : List Ty)
    (r : List Property) (sn w : List String),
    collectEntries fuel ss es (r, sn, w) =
      (r ++ dedupByName sn (rawCollectEntries fuel ss es w).1,
        seenAfterAdd sn (rawCollectEntries fuel ss es w).1,
        (rawCollectEntries fuel ss es w).2)
  | 0, ss, es, r, sn, w => by
    simp [collectEntries, rawCollectEntries, dedupByName, seenAfterAdd]
  | fuel + 1, ss, [], r, sn, w => by
    simp [collectEntries, rawCollectEntries, dedupByName, seenAfterAdd]
  | fuel + 1, ss, e :: rest, r, sn, w => by
    have htriv : ∀ n, (([] : List String).contains n = true) → sn.contains n = true := by
      intro n hn
      simp [List.contains, List.elem] at hn
    cases e with
    | reference nm =>
      cases hlook : lookupStruct ss nm with
      | none =>
        have := collectEntries_dedup fuel ss rest r sn w
        simpa [collectEntries, rawCollectEntries, hlook] using this
      | some base =>
        have hsub := collectImpl_dedup fuel ss base w
        have haddp : addProps
            (dedupByName [] (rawCollectImpl fuel ss base w).1) (r, sn) =
            (r ++ dedupByName sn (rawCollectImpl fuel ss base w).1,
              seenAfterAdd sn (rawCollectImpl fuel ss base w).1) := by
          rw [addProps_eq]
          rw [dedupByName_dedupByName _ sn [] htriv,
            seenAfterAdd_dedupByName _ sn [] htriv]
        have htail := collectEntries_dedup fuel ss rest
          (r ++ dedupByName sn (rawCollectImpl fuel ss base w).1)
          (seenAfterAdd sn (rawCollectImpl fuel ss base w).1)
          (rawCollectImpl fuel ss base w).2
        simp only [collectEntries, rawCollectEntries, hlook, hsub, haddp]
        rw [htail]
        rw [dedupByName_append, seenAfterAdd_append]
        simp [List.append_assoc]
    | base name =>
      simpa [collectEntries, rawCollectEntries] using collectEntries_dedup fuel ss rest r sn w
    | array el =>
      simpa [collectEntries, rawCollectEntries] using collectEntries_dedup fuel ss rest r sn w
    | map kk vv =>
      simpa [collectEntries, rawCollectEntries] using collectEntries_dedup fuel ss rest r sn w
    | or is =>
      simpa [collectEntries, rawCollectEntries] using collectEntries_dedup fuel ss rest r sn w
    | and is =>
      simpa [collectEntries, rawCollectEntries] using collectEntries_dedup fuel ss rest r sn w
    | tuple is =>
      simpa [collectEntries, rawCollectEntries] using collectEntries_dedup fuel ss rest r sn w
    | literal l =>
      simpa [collectEntries, rawCollectEntries] using collectEntries_dedup fuel ss rest r sn w
    | stringLiteral sv =>
      simpa [collectEntries, rawCollectEntries] using collectEntries_dedup fuel ss rest r sn w
    | integerLiteral iv =>
      simpa [collectEntries, rawCollectEntries] using collectEntries_dedup fuel ss rest r sn w
    | booleanLiteral bv =>
      simpa [collectEntries, rawCollectEntries] using collectEntries_dedup fuel ss rest r sn w
    | other kd =>
      simpa [collectEntries, rawCollectEntries] using collectEntries_dedup fuel ss rest r sn w
end

end GoLsp

namespace GoLsp

/-- Claim C1: the collected field list of a structure equals the
first-occurrence-wins de-duplication (by property name) of the raw
list consisting of the structure's own properties in declared order,
then the properties collected from each `extends` entry in declaration
order, then those from each `mixins` entry (`rawCollectImpl`, whose
definition exhibits exactly that shape). -/
theorem claim_C1 (ss : List Structure) (s : Structure) :
    collectProperties ss s =
      dedupByName [] (rawCollectImpl (collectFuel ss s) ss s []).1 ∧
    (∀ (fuel : Nat) (v : List String),
      collectImpl fuel ss s v =
        (dedupByName [] (rawCollectImpl fuel ss s v).1,
          (rawCollectImpl fuel ss s v).2)) := by
  constructor
  · unfold collectProperties
    rw [collectImpl_dedup]
  · intro fuel v
    exact collectImpl_dedup fuel ss s v

end GoLsp

namespace GoLsp

/-- Claim C4 as amended: no proposed item is itself emitted — every
emission loop equals the corresponding skip-free loop run on the
proposed-filtered input (structure declarations, field lines,
enumeration declarations and values, alias declarations, and the
server/client method loops).  The counterexample shows the original
claim's stronger reading fails: a proposed structure referenced
through `extends` still contributes its properties. -/
theorem claim_C4_amended :
    (∀ (ps : List Property) (st : GenState),
      emitFields ps st = emitFieldsAll (ps.filter (fun p => !p.proposed)) st) ∧
    (∀ (ssAll list : List Structure) (st : GenState),
      emitStructs ssAll list st =
        emitStructsAll ssAll (list.filter (fun s => !s.proposed)) st) ∧
    (∀ (enumName goType : String) (vs : List EnumerationValue),
      emitEnumValues enumName goType vs =
        emitEnumValuesAll enumName goType (vs.filter (fun v => !v.proposed))) ∧
    (∀ es : List Enumeration,
      emitEnums es = emitEnumsAll (es.filter (fun e => !e.proposed))) ∧
    (∀ (as : List TypeAlias) (st : GenState),
      emitAliases as st = emitAliasesAll (as.filter (fun a => !a.proposed)) st) ∧
    (∀ (dir : String → Bool) (ssAll : List Structure) (rs : List Request) (st : GenState),
      buildRequestMethods dir ssAll rs st =
        buildRequestMethodsAll dir ssAll (rs.filter (fun r => !r.proposed)) st) ∧
    (∀ (dir : String → Bool) (ssAll : List Structure) (ns : List Notification)
      (st : GenState),
      buildNotificationMethods dir ssAll ns st =
        buildNotificationMethodsAll dir ssAll (ns.filter (fun n => !n.proposed)) st) := by
  refine ⟨?_, ?_, ?_, ?_, ?_, ?_, ?_⟩
  · intro ps
    induction ps with
    | nil => intro st; simp [emitFields, emitFieldsAll]
    | cons p rest ih =>
      intro st
      by_cases hp : p.proposed
      · simp [emitFields, emitFieldsAll, hp, ih]
      · simp [emitFields, emitFieldsAll, hp, ih]
  · intro ssAll list
    induction list with
    | nil => intro st; simp [emitStructs, emitStructsAll]
    | cons s rest ih =>
      intro st
      by_cases hs : s.proposed
      · simp [emitStructs, emitStructsAll, hs, ih]
      · simp [emitStructs, emitStructsAll, hs, ih]
  · intro enumName goType vs
    induction vs with
    | nil => simp [emitEnumValues, emitEnumValuesAll]
    | cons v rest ih =>
      by_cases hv : v.proposed
      · simp [emitEnumValues, emitEnumValuesAll, hv, ih]
      · simp [emitEnumValues, emitEnumValuesAll, hv, ih]
  · intro es
    induction es with
    | nil => simp [emitEnums, emitEnumsAll]
    | cons e rest ih =>
      by_cases he : e.proposed
      · simp [emitEnums, emitEnumsAll, he, ih]
      · simp [emitEnums, emitEnumsAll, he, ih]
  · intro as
    induction as with
    | nil => intro st; simp [emitAliases, emitAliasesAll]
    | cons a rest ih =>
      intro st
      by_cases ha : a.proposed
      · simp [emitAliases, emitAliasesAll, ha, ih]
      · simp [emitAliases, emitAliasesAll, ha, ih]
  · intro dir ssAll rs
    induction rs with
    | nil => intro st; simp [buildRequestMethods, buildRequestMethodsAll]
    | cons r rest ih =>
      intro st
      by_cases hr : r.proposed
      · simp [buildRequestMethods, buildRequestMethodsAll, hr, ih]
      · by_cases hd : dir r.messageDirection
        · simp [buildRequestMethods, buildRequestMethodsAll, hr, hd, ih]
        · simp [buildRequestMethods, buildRequestMethodsAll, hr, hd, ih]
  · intro dir ssAll ns
    induction ns with
    | nil => intro st; simp [buildNotificationMethods, buildNotificationMethodsAll]
    | cons n rest ih =>
      intro st
      by_cases hn : n.proposed
      · simp [buildNotificationMethods, buildNotificationMethodsAll, hn, ih]
      · by_cases hd : dir n.messageDirection
        · simp [buildNotificationMethods, buildNotificationMethodsAll, hn, hd, ih]
        · simp [buildNotificationMethods, buildNotificationMethodsAll, hn, hd, ih]

/-- Counterexample for claim C4: a proposed structure `B` extended by
a non-proposed structure `A` is filtered out as a declaration but
still contributes its property `x` to the emitted field list of `A`,
so it does not contribute nothing to the output. -/
theorem claim_C4_counterexample :
    (⟨"", [], [], "B", [Property.mk "" "x" false false (Ty.base "integer")],
        true⟩ : Structure).proposed = true ∧
    (generateTypes 2026 literalKeys
        ⟨⟨"3.17"⟩, [], [],
          [⟨"", [], [], "B", [Property.mk "" "x" false false (Ty.base "integer")], true⟩,
           ⟨"", [Ty.reference "B"], [], "A", [], false⟩],
          [], []⟩ GenState.empty).1.items =
      [TypesItem.structDecl "" "A"
        [⟨"", "X", "int32", "`json:\"x\"`"⟩]] := by
  exact ⟨rfl, rfl⟩

end GoLsp

namespace GoLsp

/-- Claim C5, evaluated at the failing input: a structure whose
property is an anonymous literal that itself contains a literal-typed
property.  The inner literal is promoted (registered as `Literal2` in
the generator state) while the types file is being emitted from the
earlier name snapshot, so `Literal2` is referenced as the type of the
emitted `Literal1` field but its declaration is never emitted —
contradicting the claim (and the promoteLiteral doc comment) that each
promoted literal is emitted exactly once. -/
theorem claim_C5_bug :
    literalKeys (generateTypes 2026 literalKeys
        ⟨⟨"3.17"⟩, [], [],
          [⟨"", [], [], "S",
            [Property.mk "" "p" false false
              (Ty.literal (OptLit.some (LiteralType.mk (propListOf
                [Property.mk "" "q" false false
                  (Ty.literal (OptLit.some (LiteralType.mk PropList.nil)))]))))],
            false⟩],
          [], []⟩ GenState.empty).2.namedLiterals = ["Literal1", "Literal2"] ∧
    literalDeclNames (generateTypes 2026 literalKeys
        ⟨⟨"3.17"⟩, [], [],
          [⟨"", [], [], "S",
            [Property.mk "" "p" false false
              (Ty.literal (OptLit.some (LiteralType.mk (propListOf
                [Property.mk "" "q" false false
                  (Ty.literal (OptLit.some (LiteralType.mk PropList.nil)))]))))],
            false⟩],
          [], []⟩ GenState.empty).1.items = ["Literal1"] ∧
    (generateTypes 2026 literalKeys
        ⟨⟨"3.17"⟩, [], [],
          [⟨"", [], [], "S",
            [Property.mk "" "p" false false
              (Ty.literal (OptLit.some (LiteralType.mk (propListOf
                [Property.mk "" "q" false false
                  (Ty.literal (OptLit.some (LiteralType.mk PropList.nil)))]))))],
            false⟩],
          [], []⟩ GenState.empty).1.items =
      [TypesItem.structDecl "" "S" [⟨"", "P", "Literal1", "`json:\"p\"`"⟩],
       TypesItem.literalDecl "Literal1" [⟨"", "Q", "Literal2", "`json:\"q\"`"⟩]] :=
  ⟨rfl, rfl, rfl⟩

end GoLsp

namespace GoLsp

/-- Method constant names always start with `Method`, hence are never
empty. -/
theorem methodConstName_ne_empty (m : String) : methodConstName m ≠ "" := by
  unfold methodConstName
  intro h
  have hdata := congrArg String.data h
  simp at hdata

/-- A method whose constant name is unique within the slice gets its
constant emitted with its own method string as the value. -/
theorem emitConsts_mem : ∀ (ms : List MethodInfo) (emitted : List String) (m : MethodInfo),
    m ∈ ms →
    (∀ m', m' ∈ ms → methodConstName m'.method = methodConstName m.method →
      m'.method = m.method) →
    emitted.contains (methodConstName m.method) = false →
    (methodConstName m.method, m.method) ∈ (emitConsts ms emitted).1
  | [], emitted, m => by intro hm _ _; cases hm
  | m' :: rest, emitted, m => by
    intro hm huniq hemit
    by_cases hcn : methodConstName m'.method = methodConstName m.method
    · have hmeq : m'.method = m.method := huniq m' (List.mem_cons_self _ _) hcn
      have hcond : methodConstName m'.method ≠ "" ∧
          ¬(emitted.contains (methodConstName m'.method) = true) := by
        refine ⟨methodConstName_ne_empty _, ?_⟩
        rw [hcn, hemit]
        simp
      simp only [emitConsts]
      rw [if_pos (by simpa using hcond)]
      rw [hcn, hmeq]
      exact List.mem_cons_self _ _
    · have hm2 : m ∈ rest := by
        rcases List.mem_cons.mp hm with heq | hm2
        · rw [heq] at hcn
          exact absurd rfl hcn
        · exact hm2
      have huniq2 : ∀ x, x ∈ rest → methodConstName x.method = methodConstName m.method →
          x.method = m.method :=
        fun x hx => huniq x (List.mem_cons_of_mem _ hx)
      simp only [emitConsts]
      by_cases hcond : methodConstName m'.method ≠ "" ∧
          ¬(emitted.contains (methodConstName m'.method) = true)
      · rw [if_pos (by simpa using hcond)]
        have hemit2 : ((methodConstName m'.method :: emitted).contains
            (methodConstName m.method)) = false := by
          rw [contains_cons]
          have h1 : (methodConstName m.method == methodConstName m'.method) = false := by
            simp only [beq_eq_false_iff_ne, ne_eq]
            intro heq
            exact hcn heq.symm
          rw [h1, hemit]
          rfl
        exact List.mem_cons_of_mem _
          (emitConsts_mem rest (methodConstName m'.method :: emitted) m hm2 huniq2 hemit2)
      · rw [if_neg (by simpa using hcond)]
        exact emitConsts_mem rest emitted m hm2 huniq2 hemit

/-- Disambiguation never changes the LSP method string of a record. -/
theorem disambiguateMethods_methods (ms : List MethodInfo) :
    (disambiguateMethods ms).map (fun m => m.method) = ms.map (fun m => m.method) := by
  unfold disambiguateMethods
  rw [List.map_map, List.map_map]
  apply List.map_congr_left
  intro m _
  simp only [Function.comp_apply]
  cases h : lookupOverride m.method <;> simp [h, renameMethod]
  split <;> simp [renameMethod]

/-- Sorting preserves the multiset of records. -/
theorem sortByMethod_perm (ms : List MethodInfo) : (sortByMethod ms).Perm ms :=
  List.perm_insertionSort methodLe ms

/-- The request loop covers every non-proposed request accepted by the
direction filter. -/
theorem buildRequestMethods_cover : ∀ (dir : String → Bool) (ssAll : List Structure)
    (rs : List Request) (st : GenState) (r : Request),
    r ∈ rs → r.proposed = false → dir r.messageDirection = true →
    ∃ mi, mi ∈ (buildRequestMethods dir ssAll rs st).1 ∧ mi.method = r.method
  | dir, ssAll, [], st, r => by intro hm _ _; cases hm
  | dir, ssAll, r' :: rest, st, r => by
    intro hm hp hd
    by_cases hskip : r'.proposed = true ∨ dir r'.messageDirection = false
    · have hne : r ≠ r' := by
        intro heq
        rw [heq] at hp hd
        rcases hskip with h | h
        · rw [hp] at h
          cases h
        · rw [hd] at h
          cases h
      have hm2 : r ∈ rest := by
        rcases List.mem_cons.mp hm with heq | hm2
        · exact absurd heq hne
        · exact hm2
      have hcond : (r'.proposed || !dir r'.messageDirection) = true := by
        rcases hskip with h | h <;> simp [h]
      obtain ⟨mi, hmi, hmeq⟩ := buildRequestMethods_cover dir ssAll rest st r hm2 hp hd
      refine ⟨mi, ?_, hmeq⟩
      simpa [buildRequestMethods, hcond] using hmi
    · push_neg at hskip
      have hcond : (r'.proposed || !dir r'.messageDirection) = false := by
        have h1 : r'.proposed = false := by
          cases h : r'.proposed
          · rfl
          · exact absurd h hskip.1
        have h2 : dir r'.messageDirection = true := by
          cases h : dir r'.messageDirection
          · exact absurd h hskip.2
          · rfl
        simp [h1, h2]
      rcases List.mem_cons.mp hm with heq | hm2
      · refine ⟨(buildRequestMethod ssAll r' st).1, ?_, by rw [heq]; rfl⟩
        simp [buildRequestMethods, hcond]
      · obtain ⟨mi, hmi, hmeq⟩ := buildRequestMethods_cover dir ssAll rest
          (buildRequestMethod ssAll r' st).2 r hm2 hp hd
        refine ⟨mi, ?_, hmeq⟩
        simp [buildRequestMethods, hcond]
        exact Or.inr hmi

/-- The notification loop covers every non-proposed notification
accepted by the direction filter. -/
theorem buildNotificationMethods_cover : ∀ (dir : String → Bool) (ssAll : List Structure)
    (ns : List Notification) (st : GenState) (n : Notification),
    n ∈ ns → n.proposed = false → dir n.messageDirection = true →
    ∃ mi, mi ∈ (buildNotificationMethods dir ssAll ns st).1 ∧ mi.method = n.method
  | dir, ssAll, [], st, n => by intro hm _ _; cases hm
  | dir, ssAll, n' :: rest, st, n => by
    intro hm hp hd
    by_cases hskip : n'.proposed = true ∨ dir n'.messageDirection = false
    · have hne : n ≠ n' := by
        intro heq
        rw [heq] at hp hd
        rcases hskip with h | h
        · rw [hp] at h
          cases h
        · rw [hd] at h
          cases h
      have hm2 : n ∈ rest := by
        rcases List.mem_cons.mp hm with heq | hm2
        · exact absurd heq hne
        · exact hm2
      have hcond : (n'.proposed || !dir n'.messageDirection) = true := by
        rcases hskip with h | h <;> simp [h]
      obtain ⟨mi, hmi, hmeq⟩ := buildNotificationMethods_cover dir ssAll rest st n hm2 hp hd
      refine ⟨mi, ?_, hmeq⟩
      simpa [buildNotificationMethods, hcond] using hmi
    · push_neg at hskip
      have hcond : (n'.proposed || !dir n'.messageDirection) = false := by
        have h1 : n'.proposed = false := by
          cases h : n'.proposed
          · rfl
          · exact absurd h hskip.1
        have h2 : dir n'.messageDirection = true := by
          cases h : dir n'.messageDirection
          · exact absurd h hskip.2
          · rfl
        simp [h1, h2]
      rcases List.mem_cons.mp hm with heq | hm2
      · refine ⟨(buildNotificationMethod ssAll n' st).1, ?_, by rw [heq]; rfl⟩
        simp [buildNotificationMethods, hcond]
      · obtain ⟨mi, hmi, hmeq⟩ := buildNotificationMethods_cover dir ssAll rest
          (buildNotificationMethod ssAll n' st).2 n hm2 hp hd
        refine ⟨mi, ?_, hmeq⟩
        simp [buildNotificationMethods, hcond]
        exact Or.inr hmi

end GoLsp

namespace GoLsp

/-- A method string present in a raw method slice is still present
after disambiguation and sorting. -/
theorem methods_survive (ms : List MethodInfo) (s : String)
    (h : ∃ mi, mi ∈ ms ∧ mi.method = s) :
    ∃ mi, mi ∈ sortByMethod (disambiguateMethods ms) ∧ mi.method = s := by
  obtain ⟨mi, hmi, heq⟩ := h
  have h1 : s ∈ ms.map (fun m => m.method) := List.mem_map.mpr ⟨mi, hmi, heq⟩
  rw [← disambiguateMethods_methods] at h1
  obtain ⟨mi2, hmi2, heq2⟩ := List.mem_map.mp h1
  exact ⟨mi2, (sortByMethod_perm _).mem_iff.mpr hmi2, heq2⟩

/-- Claim C8, counterexample: with the two client-to-server request
methods `$/cancelRequest` and `cancelRequest` (neither proposed), both
map to the constant name `MethodCancelRequest`; the emitted-name dedup
of `generateServer` keeps only the first, whose value is
`$/cancelRequest`, so no emitted constant carries the value
`cancelRequest` and the claim fails for that method. -/
theorem claim_C8_counterexample :
    methodConstName "cancelRequest" = "MethodCancelRequest" ∧
    (generateServer 2026
        ⟨⟨"3.17"⟩,
          [⟨"", "clientToServer", "$/cancelRequest", OptTy.none, false, OptTy.none⟩,
           ⟨"", "clientToServer", "cancelRequest", OptTy.none, false, OptTy.none⟩],
          [], [], [], []⟩ GenState.empty).1.constants =
      [("MethodCancelRequest", "$/cancelRequest")] ∧
    ("MethodCancelRequest", "cancelRequest") ∉
      (generateServer 2026
        ⟨⟨"3.17"⟩,
          [⟨"", "clientToServer", "$/cancelRequest", OptTy.none, false, OptTy.none⟩,
           ⟨"", "clientToServer", "cancelRequest", OptTy.none, false, OptTy.none⟩],
          [], [], [], []⟩ GenState.empty).1.constants := by
  refine ⟨rfl, rfl, by decide⟩

/-- Claim C8, amended: every collected method record whose constant
name is unique among the combined server and client slices gets a
constant `(methodConstName method, method)` in the server file, and
every non-proposed request or notification accepted by the direction
filter is represented in the corresponding collected slice with its
original LSP method string. -/
theorem claim_C8_amended :
    (∀ (model : Model) (st : GenState) (year : Int) (m : MethodInfo),
      m ∈ (collectServerMethods model st).1 ++
        (collectClientMethods model (collectServerMethods model st).2).1 →
      (∀ m', m' ∈ (collectServerMethods model st).1 ++
          (collectClientMethods model (collectServerMethods model st).2).1 →
        methodConstName m'.method = methodConstName m.method → m'.method = m.method) →
      (methodConstName m.method, m.method) ∈ (generateServer year model st).1.constants) ∧
    (∀ (model : Model) (st : GenState) (r : Request),
      r ∈ model.requests → r.proposed = false → IsServerMethod r.messageDirection = true →
      ∃ mi, mi ∈ (collectServerMethods model st).1 ∧ mi.method = r.method) ∧
    (∀ (model : Model) (st : GenState) (n : Notification),
      n ∈ model.notifications → n.proposed = false →
      IsServerMethod n.messageDirection = true →
      ∃ mi, mi ∈ (collectServerMethods model st).1 ∧ mi.method = n.method) ∧
    (∀ (model : Model) (st : GenState) (r : Request),
      r ∈ model.requests → r.proposed = false → IsClientMethod r.messageDirection = true →
      ∃ mi, mi ∈ (collectClientMethods model st).1 ∧ mi.method = r.method) ∧
    (∀ (model : Model) (st : GenState) (n : Notification),
      n ∈ model.notifications → n.proposed = false →
      IsClientMethod n.messageDirection = true →
      ∃ mi, mi ∈ (collectClientMethods model st).1 ∧ mi.method = n.method) := by
  refine ⟨?_, ?_, ?_, ?_, ?_⟩
  · intro model st year m hm huniq
    show (methodConstName m.method, m.method) ∈
      (emitConsts ((collectServerMethods model st).1 ++
        (collectClientMethods model (collectServerMethods model st).2).1) []).1
    exact emitConsts_mem _ [] m hm huniq rfl
  · intro model st r hr hp hd
    obtain ⟨mi, hmi, heq⟩ :=
      buildRequestMethods_cover IsServerMethod model.structures model.requests st r hr hp hd
    exact methods_survive _ _ ⟨mi, List.mem_append_left _ hmi, heq⟩
  · intro model st n hn hp hd
    obtain ⟨mi, hmi, heq⟩ :=
      buildNotificationMethods_cover IsServerMethod model.structures model.notifications
        (buildRequestMethods IsServerMethod model.structures model.requests st).2 n hn hp hd
    exact methods_survive _ _ ⟨mi, List.mem_append_right _ hmi, heq⟩
  · intro model st r hr hp hd
    obtain ⟨mi, hmi, heq⟩ :=
      buildRequestMethods_cover IsClientMethod model.structures model.requests st r hr hp hd
    exact methods_survive _ _ ⟨mi, List.mem_append_left _ hmi, heq⟩
  · intro model st n hn hp hd
    obtain ⟨mi, hmi, heq⟩ :=
      buildNotificationMethods_cover IsClientMethod model.structures model.notifications
        (buildRequestMethods IsClientMethod model.structures model.requests st).2 n hn hp hd
    exact methods_survive _ _ ⟨mi, List.mem_append_right _ hmi, heq⟩

/-- Claim C8 amended, witness: on a model with the single non-proposed
client-to-server request `textDocument/hover`, the server constants
contain `(MethodTextDocumentHover, textDocument/hover)`. -/
theorem claim_C8_witness :
    (methodConstName "textDocument/hover", "textDocument/hover") ∈
      (generateServer 2026
        ⟨⟨"3.17"⟩,
          [⟨"", "clientToServer", "textDocument/hover", OptTy.none, false, OptTy.none⟩],
          [], [], [], []⟩ GenState.empty).1.constants := by
  obtain ⟨mi, hmi, heq⟩ :=
    claim_C8_amended.2.1
      ⟨⟨"3.17"⟩,
        [⟨"", "clientToServer", "textDocument/hover", OptTy.none, false, OptTy.none⟩],
        [], [], [], []⟩
      GenState.empty
      ⟨"", "clientToServer", "textDocument/hover", OptTy.none, false, OptTy.none⟩
      (List.mem_singleton.mpr rfl) rfl rfl
  have heq2 : mi.method = "textDocument/hover" := heq
  have hlist :
      (collectServerMethods
          ⟨⟨"3.17"⟩,
            [⟨"", "clientToServer", "textDocument/hover", OptTy.none, false, OptTy.none⟩],
            [], [], [], []⟩ GenState.empty).1 ++
        (collectClientMethods
          ⟨⟨"3.17"⟩,
            [⟨"", "clientToServer", "textDocument/hover", OptTy.none, false, OptTy.none⟩],
            [], [], [], []⟩
          (collectServerMethods
            ⟨⟨"3.17"⟩,
              [⟨"", "clientToServer", "textDocument/hover", OptTy.none, false, OptTy.none⟩],
              [], [], [], []⟩ GenState.empty).2).1 =
      [⟨"textDocument/hover", "Hover", "Hover(ctx context.Context) error", "", true, "", ""⟩] :=
    rfl
  have hmain := claim_C8_amended.1 _ GenState.empty 2026 mi (List.mem_append_left _ hmi)
    (by
      intro m2 hm2 _
      rw [hlist] at hm2
      rw [List.mem_singleton.mp hm2, heq2])
  rw [heq2] at hmain
  exact hmain

end GoLsp

namespace GoLsp

/-- `charsLt` of anything against the empty list is false. -/
theorem charsLt_nil : ∀ as, charsLt as [] = false := by
  intro as
  cases as <;> rfl

/-- Extracts the underlying comparison from a negated one. -/
theorem bang_true (b : Bool) (h : (!b) = true) : b = false := by
  cases b
  · rfl
  · exact Bool.noConfusion h

/-- Lexicographic character order is asymmetric. -/
theorem charsLt_asymm : ∀ as bs, charsLt as bs = true → charsLt bs as = false
  | [], [] => by intro h; exact Bool.noConfusion h
  | [], _ :: _ => by intro _; rfl
  | _ :: _, [] => by intro h; exact Bool.noConfusion h
  | a :: as, b :: bs => by
    intro h
    simp only [charsLt] at h ⊢
    by_cases h1 : a < b
    · rw [if_neg (lt_asymm h1), if_pos h1]
    · rw [if_neg h1] at h
      by_cases h2 : b < a
      · rw [if_pos h2] at h
        exact Bool.noConfusion h
      · rw [if_neg h2] at h
        rw [if_neg h2, if_neg h1]
        exact charsLt_asymm as bs h

/-- Two mutually non-less character lists are equal. -/
theorem charsLt_antisymm : ∀ as bs, charsLt as bs = false → charsLt bs as = false → as = bs
  | [], [] => by intro _ _; rfl
  | [], _ :: _ => by intro h _; exact Bool.noConfusion h
  | _ :: _, [] => by intro _ h; exact Bool.noConfusion h
  | a :: as, b :: bs => by
    intro h1 h2
    simp only [charsLt] at h1 h2
    by_cases hab : a < b
    · rw [if_pos hab] at h1
      exact Bool.noConfusion h1
    · rw [if_neg hab] at h1
      by_cases hba : b < a
      · rw [if_pos hba] at h2
        exact Bool.noConfusion h2
      · rw [if_neg hba] at h1
        rw [if_neg hba, if_neg hab] at h2
        have hab2 : a = b := le_antisymm (le_of_not_lt hba) (le_of_not_lt hab)
        rw [hab2, charsLt_antisymm as bs h1 h2]

/-- Non-lessness of character lists is transitive. -/
theorem charsLt_le_trans : ∀ as bs cs, charsLt as bs = false → charsLt bs cs = false →
    charsLt as cs = false
  | as, [], cs => by
    intro _ h2
    cases cs with
    | nil => exact charsLt_nil as
    | cons c cs => exact Bool.noConfusion h2
  | as, b :: bs, [] => by
    intro _ _
    exact charsLt_nil as
  | [], b :: bs, c :: cs => by
    intro h1 _
    exact Bool.noConfusion h1
  | a :: as, b :: bs, c :: cs => by
    intro h1 h2
    simp only [charsLt] at h1 h2 ⊢
    by_cases hab : a < b
    · rw [if_pos hab] at h1
      exact Bool.noConfusion h1
    · rw [if_neg hab] at h1
      by_cases hbc : b < c
      · rw [if_pos hbc] at h2
        exact Bool.noConfusion h2
      · rw [if_neg hbc] at h2
        have hca : c ≤ a := le_trans (le_of_not_lt hbc) (le_of_not_lt hab)
        rw [if_neg (not_lt.mpr hca)]
        by_cases hclta : c < a
        · rw [if_pos hclta]
        · rw [if_neg hclta]
          have hac : a = c := le_antisymm (le_of_not_lt hclta) hca
          have h3 : a ≤ b := by
            rw [hac]
            exact le_of_not_lt hbc
          have h4 : b ≤ c := by
            rw [← hac]
            exact le_of_not_lt hab
          rw [if_neg (not_lt.mpr h3)] at h1
          rw [if_neg (not_lt.mpr h4)] at h2
          exact charsLt_le_trans as bs cs h1 h2

instance : IsTotal String strLe :=
  ⟨fun a b => by
    unfold strLe strLeB
    cases h : charsLt b.data a.data with
    | false =>
      left
      rfl
    | true =>
      right
      rw [charsLt_asymm b.data a.data h]
      rfl⟩

instance : IsTrans String strLe :=
  ⟨fun a b c hab hbc => by
    unfold strLe strLeB at hab hbc ⊢
    have h1 : charsLt b.data a.data = false := bang_true _ hab
    have h2 : charsLt c.data b.data = false := bang_true _ hbc
    rw [charsLt_le_trans c.data b.data a.data h2 h1]
    rfl⟩

instance : IsAntisymm String strLe :=
  ⟨fun a b hab hba => by
    unfold strLe strLeB at hab hba
    have h1 : charsLt b.data a.data = false := bang_true _ hab
    have h2 : charsLt a.data b.data = false := bang_true _ hba
    have h3 : a.data = b.data := charsLt_antisymm a.data b.data h2 h1
    cases a with
    | mk da =>
      cases b with
      | mk db => exact congrArg String.mk h3⟩

instance : IsTotal MethodInfo methodLe :=
  ⟨fun a b => total_of strLe a.method b.method⟩

instance : IsTrans MethodInfo methodLe :=
  ⟨fun a b c hab hbc => trans_of strLe hab hbc⟩

/-- `sortStrings` always yields a sorted list. -/
theorem sortStrings_sorted (l : List String) : List.Sorted strLe (sortStrings l) :=
  List.sorted_insertionSort strLe l

/-- Sorting coincides on permutations: the only use the generator
makes of the map-iteration order. -/
theorem sortStrings_eq_of_perm (l₁ l₂ : List String) (h : l₁.Perm l₂) :
    sortStrings l₁ = sortStrings l₂ :=
  List.eq_of_perm_of_sorted
    ((List.perm_insertionSort strLe l₁).trans (h.trans (List.perm_insertionSort strLe l₂).symm))
    (List.sorted_insertionSort strLe l₁)
    (List.sorted_insertionSort strLe l₂)

/-- `sortByMethod` always yields a method-sorted list. -/
theorem sortByMethod_sorted (ms : List MethodInfo) : List.Sorted methodLe (sortByMethod ms) :=
  List.sorted_insertionSort methodLe ms

/-- `literalDeclNames` distributes over append. -/
theorem literalDeclNames_append (xs ys : List TypesItem) :
    literalDeclNames (xs ++ ys) = literalDeclNames xs ++ literalDeclNames ys := by
  unfold literalDeclNames
  exact List.filterMap_append xs ys _

/-- The structure section emits no promoted-literal declarations. -/
theorem literalDeclNames_emitStructs (ssAll : List Structure) :
    ∀ (ss : List Structure) (st : GenState),
      literalDeclNames (emitStructs ssAll ss st).1 = []
  | [], _ => rfl
  | s :: rest, st => by
    cases h : s.proposed with
    | true =>
      simpa [emitStructs, h] using literalDeclNames_emitStructs ssAll rest st
    | false =>
      simpa [emitStructs, h, literalDeclNames] using
        literalDeclNames_emitStructs ssAll rest (emitFields (collectProperties ssAll s) st).2

/-- The enumeration section emits no promoted-literal declarations. -/
theorem literalDeclNames_emitEnums : ∀ es, literalDeclNames (emitEnums es) = []
  | [] => rfl
  | e :: rest => by
    cases h : e.proposed with
    | true => simpa [emitEnums, h] using literalDeclNames_emitEnums rest
    | false => simpa [emitEnums, h, literalDeclNames] using literalDeclNames_emitEnums rest

/-- The alias section emits no promoted-literal declarations. -/
theorem literalDeclNames_emitAliases : ∀ (ts : List TypeAlias) (st : GenState),
    literalDeclNames (emitAliases ts st).1 = []
  | [], _ => rfl
  | a :: rest, st => by
    cases h : a.proposed with
    | true => simpa [emitAliases, h] using literalDeclNames_emitAliases rest st
    | false =>
      simpa [emitAliases, h, literalDeclNames] using
        literalDeclNames_emitAliases rest (resolveTy a.type st).2

/-- The literal section emits its declarations as a subsequence of the
sorted name snapshot it iterates. -/
theorem literalDeclNames_emitLiterals : ∀ (names : List String) (st : GenState),
    (literalDeclNames (emitLiterals names st).1).Sublist names
  | [], st => by simp [emitLiterals, literalDeclNames]
  | n :: rest, st => by
    cases h : lookupLiteral st.namedLiterals n with
    | some lit =>
      have ih := literalDeclNames_emitLiterals rest (emitFields lit.properties st).2
      simp only [emitLiterals, h, literalDeclNames, List.filterMap_cons]
      exact List.Sublist.cons₂ n (by simpa [literalDeclNames] using ih)
    | none =>
      have ih := literalDeclNames_emitLiterals rest st
      simp only [emitLiterals, h]
      exact List.Sublist.cons n ih

/-- The promoted-literal declarations of a types run appear in sorted
name order. -/
theorem generateTypes_literalNames_sorted (year : Int)
    (iter : List (String × LiteralType) → List String) (model : Model) (st : GenState) :
    List.Sorted strLe (literalDeclNames (generateTypes year iter model st).1.items) := by
  unfold generateTypes
  simp only [literalDeclNames_append, literalDeclNames_emitStructs, literalDeclNames_emitEnums,
    literalDeclNames_emitAliases, List.nil_append]
  exact List.Pairwise.sublist (literalDeclNames_emitLiterals _ _) (sortStrings_sorted _)

/-- The types file does not depend on the map-iteration oracle as long
as the oracle enumerates the keys. -/
theorem generateTypes_iter (year : Int)
    (iter₁ iter₂ : List (String × LiteralType) → List String) (model : Model) (st : GenState)
    (h₁ : ∀ m, (iter₁ m).Perm (literalKeys m))
    (h₂ : ∀ m, (iter₂ m).Perm (literalKeys m)) :
    generateTypes year iter₁ model st = generateTypes year iter₂ model st := by
  have hn : ∀ X, sortStrings (iter₁ X) = sortStrings (iter₂ X) := fun X =>
    sortStrings_eq_of_perm _ _ ((h₁ X).trans (h₂ X).symm)
  simp only [generateTypes, hn]

/-- Whole-run independence from the iteration oracle. -/
theorem Generate_iter (year : Int)
    (iter₁ iter₂ : List (String × LiteralType) → List String) (model : Model)
    (h₁ : ∀ m, (iter₁ m).Perm (literalKeys m))
    (h₂ : ∀ m, (iter₂ m).Perm (literalKeys m)) :
    Generate year iter₁ model = Generate year iter₂ model := by
  simp only [Generate, generateTypes_iter year iter₁ iter₂ model GenState.empty h₁ h₂]

end GoLsp

namespace GoLsp

/-- Claim C7: generation is deterministic.  With any two iteration
oracles that enumerate the promoted-literal keys (the only
nondeterminism, Go map `range`), the two runs agree on every component
of the three files and on the final state; with equal wall-clock years
they are fully identical.  Moreover the server and client method lists
are sorted by the raw LSP method string and the promoted-literal
declarations appear in sorted name order. -/
theorem claim_C7 (year₁ year₂ : Int)
    (iter₁ iter₂ : List (String × LiteralType) → List String) (model : Model)
    (h₁ : ∀ m, (iter₁ m).Perm (literalKeys m))
    (h₂ : ∀ m, (iter₂ m).Perm (literalKeys m)) :
    (year₁ = year₂ → Generate year₁ iter₁ model = Generate year₂ iter₂ model) ∧
    (Generate year₁ iter₁ model).1.types.items = (Generate year₂ iter₂ model).1.types.items ∧
    (Generate year₁ iter₁ model).1.server.constants =
      (Generate year₂ iter₂ model).1.server.constants ∧
    (Generate year₁ iter₁ model).1.server.interfaceMethods =
      (Generate year₂ iter₂ model).1.server.interfaceMethods ∧
    (Generate year₁ iter₁ model).1.server.dispatchCases =
      (Generate year₂ iter₂ model).1.server.dispatchCases ∧
    (Generate year₁ iter₁ model).1.client.interfaceMethods =
      (Generate year₂ iter₂ model).1.client.interfaceMethods ∧
    (Generate year₁ iter₁ model).1.client.stubMethods =
      (Generate year₂ iter₂ model).1.client.stubMethods ∧
    (Generate year₁ iter₁ model).2 = (Generate year₂ iter₂ model).2 ∧
    List.Sorted methodLe (Generate year₁ iter₁ model).1.server.interfaceMethods ∧
    List.Sorted methodLe (Generate year₁ iter₁ model).1.client.interfaceMethods ∧
    List.Sorted strLe (literalDeclNames (Generate year₁ iter₁ model).1.types.items) := by
  have hsame : Generate year₁ iter₁ model = Generate year₁ iter₂ model :=
    Generate_iter year₁ iter₁ iter₂ model h₁ h₂
  refine ⟨?_, ?_, ?_, ?_, ?_, ?_, ?_, ?_, ?_, ?_, ?_⟩
  · intro hy
    rw [← hy]
    exact hsame
  · rw [hsame]
    exact rfl
  · rw [hsame]
    exact rfl
  · rw [hsame]
    exact rfl
  · rw [hsame]
    exact rfl
  · rw [hsame]
    exact rfl
  · rw [hsame]
    exact rfl
  · rw [hsame]
    exact rfl
  · exact sortByMethod_sorted _
  · exact sortByMethod_sorted _
  · exact generateTypes_literalNames_sorted year₁ iter₁ model GenState.empty

end GoLsp

namespace GoLsp

/-- Claim C7, witness: instantiated at the sorted-keys oracle and the
reversed-keys oracle on an empty model with two distinct years. -/
theorem claim_C7_witness :
    (Generate 2026 literalKeys ⟨⟨"3.17"⟩, [], [], [], [], []⟩).1.types.items =
      (Generate 2027 (fun m => (literalKeys m).reverse)
        ⟨⟨"3.17"⟩, [], [], [], [], []⟩).1.types.items ∧
    List.Sorted strLe (literalDeclNames
      (Generate 2026 literalKeys ⟨⟨"3.17"⟩, [], [], [], [], []⟩).1.types.items) :=
  ⟨(claim_C7 2026 2027 literalKeys (fun m => (literalKeys m).reverse)
      ⟨⟨"3.17"⟩, [], [], [], [], []⟩
      (fun m => List.Perm.refl _) (fun m => List.reverse_perm _)).2.1,
   (claim_C7 2026 2027 literalKeys (fun m => (literalKeys m).reverse)
      ⟨⟨"3.17"⟩, [], [], [], [], []⟩
      (fun m => List.Perm.refl _) (fun m => List.reverse_perm _)).2.2.2.2.2.2.2.2.2.2⟩

end GoLsp
